import Mathlib

/-!
# Lockdep: deadlock avoidance engine (src/selfie/lockdep_code.c)

Shallow embedding of the lock-dependency engine.

Modelling conventions:

* A `uint64_t` value is a `Nat`; the only arithmetic that can wrap in the
  source is `count - 1` in `remove_held_lock`, which is written `sub64`.
  `count + 1`, `lockdep_total_dependencies + 1` and `depth + 1` are guarded by
  the capacity tests in front of them and cannot reach `2^64`.
* A singly linked list is a `List`, head first: the held-lock list of a
  context is a `List Nat`, the dependency graph a `List (Nat × Nat)` of
  `(from, to)` pairs (newest edge first).
* An execution context is the record `Ctx` of the two words the engine owns
  (slots 35 and 36) and the identifier returned by `get_id_context`.
* The scratch buffer `lockdep_visited_buffer` is a map from word index to
  value.  The buffer of the source has 16 words, and `has_cycle_dfs` stores at
  index 16 when it is entered at depth 16 (its test is
  `depth > MAX_LOCKDEP_HELD_LOCKS`).  The map has a cell for every index and
  keeps that store in cell 16, where it touches no other object.
* What the store at index 16 does to the word behind the buffer is the subject
  of the second model, `Lockdep.Word`: the same source text on one
  word-addressed memory that holds the contexts, the buffer and the nodes.
  The lists are exact for every run in which no search is entered at depth 16:
  on such a run the memory returns the same words and ends with the same graph,
  held lists and counts (`word_refines_inside_buffer`).
* `printf` output is the list `out` of structured messages `Msg`.
-/

namespace Lockdep

/-! ## Constants -/

def MAX_LOCKDEP_DEPENDENCIES : Nat := 512

def MAX_LOCKDEP_HELD_LOCKS : Nat := 16

/-- Subtraction of 64-bit machine words. -/
def sub64 (a b : Nat) : Nat := (a + 2 ^ 64 - b) % 2 ^ 64

/-! ## Data model -/

/-- One block of diagnostic output. -/
inductive Msg where
  | initialized (max_deps max_held : Nat)
  | max_held_exceeded (max_held ctx_id : Nat)
  | max_dependencies_reached (max_deps : Nat)
  | deadlock_detected (ctx_id to_class from_class : Nat) (held : List Nat)
      (chain : List (Nat × Nat))
  deriving DecidableEq, Repr

/-- The lockdep fields of an execution context. -/
structure Ctx where
  id : Nat
  held_locks_head : List Nat
  held_locks_count : Nat
  deriving DecidableEq, Repr

/-- The global variables of the engine, and the output stream. -/
structure Globals where
  lockdep_dependency_graph : List (Nat × Nat)
  lockdep_total_dependencies : Nat
  lockdep_enabled : Nat
  lockdep_visited_buffer : Nat → Nat
  out : List Msg

/-- Store `x` in word `i` of a buffer. -/
def store (buf : Nat → Nat) (i x : Nat) : Nat → Nat :=
  fun j => if j = i then x else buf j

/-! ## Held locks management -/

def add_held_lock (s : Globals) (context : Ctx) (lock_class : Nat) : Globals × Ctx :=
  let count := context.held_locks_count
  if count ≥ MAX_LOCKDEP_HELD_LOCKS then
    ({ s with out := s.out ++ [Msg.max_held_exceeded MAX_LOCKDEP_HELD_LOCKS context.id] },
      context)
  else
    (s, { context with
            held_locks_head := lock_class :: context.held_locks_head
            held_locks_count := count + 1 })

/-- The `while` loop of `remove_held_lock`: the list with the first node of class
`lock_class` unlinked, or `none` when the loop runs off the end of the list. -/
def remove_held_lock_loop : List Nat → Nat → Option (List Nat)
  | [], _ => none
  | cur :: next, lock_class =>
    if cur = lock_class then some next
    else
      match remove_held_lock_loop next lock_class with
      | some rest => some (cur :: rest)
      | none => none

def remove_held_lock (context : Ctx) (lock_class : Nat) : Ctx :=
  match remove_held_lock_loop context.held_locks_head lock_class with
  | some l =>
    { context with
        held_locks_head := l
        held_locks_count := sub64 context.held_locks_count 1 }
  | none => context

/-- The `while` loop of `is_lock_held`. -/
def is_lock_held_loop : List Nat → Nat → Nat
  | [], _ => 0
  | cur :: next, lock_class =>
    if cur = lock_class then 1 else is_lock_held_loop next lock_class

def is_lock_held (context : Ctx) (lock_class : Nat) : Nat :=
  is_lock_held_loop context.held_locks_head lock_class

/-! ## Dependency graph management -/

/-- The `while` loop of `dependency_exists`. -/
def dependency_exists_loop : List (Nat × Nat) → Nat → Nat → Nat
  | [], _, _ => 0
  | dep :: next, from_, to_ =>
    if dep.1 = from_ then
      if dep.2 = to_ then 1 else dependency_exists_loop next from_ to_
    else dependency_exists_loop next from_ to_

def dependency_exists (s : Globals) (from_ to_ : Nat) : Nat :=
  dependency_exists_loop s.lockdep_dependency_graph from_ to_

def add_dependency (s : Globals) (from_ to_ : Nat) : Globals :=
  if s.lockdep_total_dependencies ≥ MAX_LOCKDEP_DEPENDENCIES then
    { s with out := s.out ++ [Msg.max_dependencies_reached MAX_LOCKDEP_DEPENDENCIES] }
  else
    { s with
        lockdep_dependency_graph := (from_, to_) :: s.lockdep_dependency_graph
        lockdep_total_dependencies := s.lockdep_total_dependencies + 1 }

/-! ## Cycle detection (DFS) -/

/-- The `while` loop of `lockdep_init_visited`, entered with counter `i` and
`n = size - i` iterations left. -/
def lockdep_init_visited_loop (visited : Nat → Nat) (i : Nat) : Nat → (Nat → Nat)
  | 0 => visited
  | n + 1 => lockdep_init_visited_loop (store visited i 0) (i + 1) n

def lockdep_init_visited (visited : Nat → Nat) (size : Nat) : Nat → Nat :=
  lockdep_init_visited_loop visited 0 size

/-- The `while` loop of `lockdep_is_visited`, entered with counter `i` and
`n = depth - i` iterations left. -/
def lockdep_is_visited_loop (visited : Nat → Nat) (node : Nat) (i : Nat) : Nat → Nat
  | 0 => 0
  | n + 1 =>
    if visited i = node then 1 else lockdep_is_visited_loop visited node (i + 1) n

def lockdep_is_visited (visited : Nat → Nat) (depth node : Nat) : Nat :=
  lockdep_is_visited_loop visited node 0 depth

/-- The `while` loop of `has_cycle_dfs` over the edges that are still to be
scanned; `self` is the recursive call. The result is the returned word and
the buffer as the loop leaves it. -/
def has_cycle_dfs_loop (self : Nat → Nat → (Nat → Nat) → Nat → Nat × (Nat → Nat))
    (from_ to_ depth : Nat) : List (Nat × Nat) → (Nat → Nat) → Nat × (Nat → Nat)
  | [], visited => (0, visited)
  | dep :: next, visited =>
    let dep_from := dep.1
    let dep_to := dep.2
    if dep_from = from_ then
      let already_visited := lockdep_is_visited visited depth dep_to
      if already_visited = 0 then
        let r := self dep_to to_ visited (depth + 1)
        if r.1 ≠ 0 then (1, r.2)
        else has_cycle_dfs_loop self from_ to_ depth next r.2
      else has_cycle_dfs_loop self from_ to_ depth next visited
    else has_cycle_dfs_loop self from_ to_ depth next visited

/-- The body of `has_cycle_dfs`, with the recursion unrolled `fuel` times. The
test `depth > MAX_LOCKDEP_HELD_LOCKS` bounds the recursion, so that
`MAX_LOCKDEP_HELD_LOCKS + 1 - depth` unrollings are all the source can make
(`has_cycle_dfs_eq` below is the recursive equation of the source). The store
`*(visited + depth) = from` made at depth 16 goes to cell 16 of the map;
`Word.has_cycle_dfs` makes it in memory. -/
def has_cycle_dfs_fuel (graph : List (Nat × Nat)) :
    Nat → Nat → Nat → (Nat → Nat) → Nat → Nat × (Nat → Nat)
  | 0, _, _, visited, _ => (1, visited)
  | fuel + 1, from_, to_, visited, depth =>
    if depth > MAX_LOCKDEP_HELD_LOCKS then (1, visited)
    else if from_ = to_ then (1, visited)
    else
      has_cycle_dfs_loop (has_cycle_dfs_fuel graph fuel) from_ to_ depth graph
        (store visited depth from_)

def has_cycle_dfs (graph : List (Nat × Nat)) (from_ to_ : Nat) (visited : Nat → Nat)
    (depth : Nat) : Nat × (Nat → Nat) :=
  has_cycle_dfs_fuel graph (MAX_LOCKDEP_HELD_LOCKS + 1 - depth) from_ to_ visited depth

def would_create_cycle (s : Globals) (from_ to_ : Nat) : Nat × Globals :=
  let visited := lockdep_init_visited s.lockdep_visited_buffer MAX_LOCKDEP_HELD_LOCKS
  let r := has_cycle_dfs s.lockdep_dependency_graph to_ from_ visited 0
  (r.1, { s with lockdep_visited_buffer := r.2 })

/-! ## Deadlock warnings -/

/-- The edges printed by `print_dependency_chain`: the first ten of the list. -/
def print_dependency_chain (s : Globals) : List (Nat × Nat) :=
  s.lockdep_dependency_graph.take 10

/-- The classes printed by `print_held_locks`. -/
def print_held_locks (context : Ctx) : List Nat :=
  context.held_locks_head

def print_deadlock_warning (s : Globals) (context : Ctx) (from_class to_class : Nat) :
    Globals :=
  { s with
      out := s.out ++ [Msg.deadlock_detected context.id to_class from_class
        (print_held_locks context) (print_dependency_chain s)] }

/-! ## Main lockdep functions -/

/-- The `while` loop of `lockdep_lock_acquire` over the held locks still to be
examined: `0` when the loop returns denied, `1` when it runs to its end. The
classes are those of the list as the call finds it;
`Word.lockdep_lock_acquire_loop` loads the class of each node from memory when
its turn comes. -/
def lockdep_lock_acquire_loop (context : Ctx) (lock_class : Nat) :
    List Nat → Globals → Nat × Globals
  | [], s => (1, s)
  | from_class :: next, s =>
    if dependency_exists s from_class lock_class = 0 then
      let r := would_create_cycle s from_class lock_class
      if r.1 ≠ 0 then (0, print_deadlock_warning r.2 context from_class lock_class)
      else
        lockdep_lock_acquire_loop context lock_class next
          (add_dependency r.2 from_class lock_class)
    else lockdep_lock_acquire_loop context lock_class next s

def lockdep_lock_acquire (s : Globals) (context : Ctx) (lock_class : Nat) :
    Nat × Globals × Ctx :=
  if s.lockdep_enabled = 0 then (1, s, context)
  else
    let r := lockdep_lock_acquire_loop context lock_class context.held_locks_head s
    if r.1 = 0 then (0, r.2, context)
    else
      let a := add_held_lock r.2 context lock_class
      (1, a.1, a.2)

def lockdep_lock_release (s : Globals) (context : Ctx) (lock_class : Nat) : Globals × Ctx :=
  if s.lockdep_enabled = 0 then (s, context)
  else (s, remove_held_lock context lock_class)

def lockdep_semaphore_acquire (s : Globals) (context : Ctx) (sem_class : Nat) :
    Globals × Ctx :=
  (lockdep_lock_acquire s context sem_class).2

def lockdep_semaphore_release (s : Globals) (context : Ctx) (sem_class : Nat) :
    Globals × Ctx :=
  lockdep_lock_release s context sem_class

/-! ## Initialization -/

/-- `fresh` is the content of the memory that `smalloc` returns for the
scratch buffer. -/
def init_lockdep (s : Globals) (fresh : Nat → Nat) : Globals :=
  { lockdep_dependency_graph := []
    lockdep_total_dependencies := 0
    lockdep_enabled := 1
    lockdep_visited_buffer := lockdep_init_visited fresh MAX_LOCKDEP_HELD_LOCKS
    out := s.out ++ [Msg.initialized MAX_LOCKDEP_DEPENDENCIES MAX_LOCKDEP_HELD_LOCKS] }

def reset_lockdep (s : Globals) : Globals :=
  { s with
      lockdep_dependency_graph := []
      lockdep_total_dependencies := 0
      lockdep_enabled := 1 }

/-! ## The engine driven by its host

The hosting kernel owns the execution contexts and calls into the engine, one
call at a time. A context is named by its handle, a `Nat`. -/

structure System where
  globals : Globals
  contexts : Nat → Ctx

inductive Call where
  | acquire (context lock_class : Nat)
  | release (context lock_class : Nat)
  | reset
  deriving DecidableEq, Repr

/-- Write back the fields of context `i`. -/
def set_context (contexts : Nat → Ctx) (i : Nat) (c : Ctx) : Nat → Ctx :=
  fun j => if j = i then c else contexts j

/-- One call: the word it returns (for `lockdep_lock_acquire`) and the state it
leaves. The call works on the record of its own context; in `Word.exec` the
nodes of all contexts lie in the memory that the call writes to. -/
def exec (sys : System) : Call → Option Nat × System
  | Call.acquire x lock_class =>
    let r := lockdep_lock_acquire sys.globals (sys.contexts x) lock_class
    (some r.1, { globals := r.2.1, contexts := set_context sys.contexts x r.2.2 })
  | Call.release x lock_class =>
    let r := lockdep_lock_release sys.globals (sys.contexts x) lock_class
    (none, { globals := r.1, contexts := set_context sys.contexts x r.2 })
  | Call.reset =>
    (none, { sys with globals := reset_lockdep sys.globals })

/-- The state after a sequence of calls. -/
def run (sys : System) : List Call → System
  | [] => sys
  | c :: rest => run (exec sys c).2 rest

/-- The words returned by the `lockdep_lock_acquire` calls of a sequence, in
order. -/
def results (sys : System) : List Call → List Nat
  | [] => []
  | c :: rest =>
    match (exec sys c).1 with
    | some r => r :: results (exec sys c).2 rest
    | none => results (exec sys c).2 rest

/-- The state produced by `init_lockdep`, with the contexts of the host. -/
def initial (s : Globals) (fresh : Nat → Nat) (contexts : Nat → Ctx) : System :=
  { globals := init_lockdep s fresh, contexts := contexts }

/-- A host in which no context holds a lock. -/
def idle_contexts : Nat → Ctx :=
  fun i => { id := i, held_locks_head := [], held_locks_count := 0 }

/-- Some state of the globals before `init_lockdep` runs. -/
def boot : Globals :=
  { lockdep_dependency_graph := []
    lockdep_total_dependencies := 0
    lockdep_enabled := 1
    lockdep_visited_buffer := fun _ => 0
    out := [] }

/-- The globals with a given dependency graph, engine enabled. -/
def with_graph (graph : List (Nat × Nat)) : Globals :=
  { lockdep_dependency_graph := graph
    lockdep_total_dependencies := graph.length
    lockdep_enabled := 1
    lockdep_visited_buffer := fun _ => 0
    out := [] }

/-- One call of the host made through the semaphore entry points: `acquire` is
`lockdep_semaphore_acquire`, `release` is `lockdep_semaphore_release`. -/
def exec_semaphore (sys : System) : Call → System
  | Call.acquire x sem_class =>
    let r := lockdep_semaphore_acquire sys.globals (sys.contexts x) sem_class
    { globals := r.1, contexts := set_context sys.contexts x r.2 }
  | Call.release x sem_class =>
    let r := lockdep_semaphore_release sys.globals (sys.contexts x) sem_class
    { globals := r.1, contexts := set_context sys.contexts x r.2 }
  | Call.reset => { sys with globals := reset_lockdep sys.globals }

/-- The state after a sequence of calls made through the semaphore entry
points. -/
def run_semaphore (sys : System) : List Call → System
  | [] => sys
  | c :: rest => run_semaphore (exec_semaphore sys c) rest

/-! ## The search with a bound on nested calls

The same source text, run with a budget of activation frames: a call made when
no frame is left gives `none`. -/

/-- The `while` loop of `has_cycle_dfs`, where the recursive call `self` may run
out of frames. -/
def has_cycle_dfs_loop_budget
    (self : Nat → Nat → (Nat → Nat) → Nat → Option (Nat × (Nat → Nat)))
    (from_ to_ depth : Nat) : List (Nat × Nat) → (Nat → Nat) → Option (Nat × (Nat → Nat))
  | [], visited => some (0, visited)
  | dep :: next, visited =>
    let dep_from := dep.1
    let dep_to := dep.2
    if dep_from = from_ then
      let already_visited := lockdep_is_visited visited depth dep_to
      if already_visited = 0 then
        match self dep_to to_ visited (depth + 1) with
        | none => none
        | some r =>
          if r.1 ≠ 0 then some (1, r.2)
          else has_cycle_dfs_loop_budget self from_ to_ depth next r.2
      else has_cycle_dfs_loop_budget self from_ to_ depth next visited
    else has_cycle_dfs_loop_budget self from_ to_ depth next visited

/-- The function `has_cycle_dfs` with `frames` activation frames available. -/
def has_cycle_dfs_budget (graph : List (Nat × Nat)) :
    Nat → Nat → Nat → (Nat → Nat) → Nat → Option (Nat × (Nat → Nat))
  | 0, _, _, _, _ => none
  | frames + 1, from_, to_, visited, depth =>
    if depth > MAX_LOCKDEP_HELD_LOCKS then some (1, visited)
    else if from_ = to_ then some (1, visited)
    else
      has_cycle_dfs_loop_budget (has_cycle_dfs_budget graph frames) from_ to_ depth graph
        (store visited depth from_)

def would_create_cycle_budget (frames : Nat) (s : Globals) (from_ to_ : Nat) :
    Option (Nat × Globals) :=
  let visited := lockdep_init_visited s.lockdep_visited_buffer MAX_LOCKDEP_HELD_LOCKS
  match has_cycle_dfs_budget s.lockdep_dependency_graph frames to_ from_ visited 0 with
  | none => none
  | some r => some (r.1, { s with lockdep_visited_buffer := r.2 })

def lockdep_lock_acquire_loop_budget (frames : Nat) (context : Ctx) (lock_class : Nat) :
    List Nat → Globals → Option (Nat × Globals)
  | [], s => some (1, s)
  | from_class :: next, s =>
    if dependency_exists s from_class lock_class = 0 then
      match would_create_cycle_budget frames s from_class lock_class with
      | none => none
      | some r =>
        if r.1 ≠ 0 then some (0, print_deadlock_warning r.2 context from_class lock_class)
        else
          lockdep_lock_acquire_loop_budget frames context lock_class next
            (add_dependency r.2 from_class lock_class)
    else lockdep_lock_acquire_loop_budget frames context lock_class next s

def lockdep_lock_acquire_budget (frames : Nat) (s : Globals) (context : Ctx)
    (lock_class : Nat) : Option (Nat × Globals × Ctx) :=
  if s.lockdep_enabled = 0 then some (1, s, context)
  else
    match lockdep_lock_acquire_loop_budget frames context lock_class
        context.held_locks_head s with
    | none => none
    | some r =>
      if r.1 = 0 then some (0, r.2, context)
      else
        let a := add_held_lock r.2 context lock_class
        some (1, a.1, a.2)

/-! ## The search with its accesses to the scratch buffer

The same source text, returning besides its result the list of the word
indices of `visited` that it loads and stores, in order. -/

/-- One access to the scratch buffer, by word index. -/
inductive Access where
  | read (index : Nat)
  | write (index : Nat)
  deriving DecidableEq, Repr

/-- The stores of `lockdep_init_visited`. -/
def lockdep_init_visited_loop_traced (visited : Nat → Nat) (i : Nat) :
    Nat → (Nat → Nat) × List Access
  | 0 => (visited, [])
  | n + 1 =>
    let r := lockdep_init_visited_loop_traced (store visited i 0) (i + 1) n
    (r.1, Access.write i :: r.2)

/-- The loads of `lockdep_is_visited`. -/
def lockdep_is_visited_loop_traced (visited : Nat → Nat) (node : Nat) (i : Nat) :
    Nat → Nat × List Access
  | 0 => (0, [])
  | n + 1 =>
    if visited i = node then (1, [Access.read i])
    else
      let r := lockdep_is_visited_loop_traced visited node (i + 1) n
      (r.1, Access.read i :: r.2)

def has_cycle_dfs_loop_traced
    (self : Nat → Nat → (Nat → Nat) → Nat → Nat × (Nat → Nat) × List Access)
    (from_ to_ depth : Nat) :
    List (Nat × Nat) → (Nat → Nat) → Nat × (Nat → Nat) × List Access
  | [], visited => (0, visited, [])
  | dep :: next, visited =>
    let dep_from := dep.1
    let dep_to := dep.2
    if dep_from = from_ then
      let already_visited := lockdep_is_visited_loop_traced visited dep_to 0 depth
      if already_visited.1 = 0 then
        let r := self dep_to to_ visited (depth + 1)
        if r.1 ≠ 0 then (1, r.2.1, already_visited.2 ++ r.2.2)
        else
          let k := has_cycle_dfs_loop_traced self from_ to_ depth next r.2.1
          (k.1, k.2.1, already_visited.2 ++ r.2.2 ++ k.2.2)
      else
        let k := has_cycle_dfs_loop_traced self from_ to_ depth next visited
        (k.1, k.2.1, already_visited.2 ++ k.2.2)
    else has_cycle_dfs_loop_traced self from_ to_ depth next visited

def has_cycle_dfs_traced_fuel (graph : List (Nat × Nat)) :
    Nat → Nat → Nat → (Nat → Nat) → Nat → Nat × (Nat → Nat) × List Access
  | 0, _, _, visited, _ => (1, visited, [])
  | fuel + 1, from_, to_, visited, depth =>
    if depth > MAX_LOCKDEP_HELD_LOCKS then (1, visited, [])
    else if from_ = to_ then (1, visited, [])
    else
      let k := has_cycle_dfs_loop_traced (has_cycle_dfs_traced_fuel graph fuel) from_ to_ depth
        graph (store visited depth from_)
      (k.1, k.2.1, Access.write depth :: k.2.2)

def has_cycle_dfs_traced (graph : List (Nat × Nat)) (from_ to_ : Nat) (visited : Nat → Nat)
    (depth : Nat) : Nat × (Nat → Nat) × List Access :=
  has_cycle_dfs_traced_fuel graph (MAX_LOCKDEP_HELD_LOCKS + 1 - depth) from_ to_ visited depth

/-- The result of `would_create_cycle` and the accesses it makes to the
buffer. -/
def would_create_cycle_traced (s : Globals) (from_ to_ : Nat) : Nat × List Access :=
  let i := lockdep_init_visited_loop_traced s.lockdep_visited_buffer 0 MAX_LOCKDEP_HELD_LOCKS
  let r := has_cycle_dfs_traced s.lockdep_dependency_graph to_ from_ i.1 0
  (r.1, i.2 ++ r.2.2)

/-- The index of an access. -/
def Access.index : Access → Nat
  | Access.read i => i
  | Access.write i => i

/-- A call of the protocol, or a direct call of `add_dependency`. -/
inductive HostCall where
  | protocol (call : Call)
  | add_dependency (from_ to_ : Nat)
  deriving DecidableEq, Repr

def exec_host (sys : System) : HostCall → System
  | HostCall.protocol call => (exec sys call).2
  | HostCall.add_dependency from_ to_ =>
    { sys with globals := add_dependency sys.globals from_ to_ }

def run_host (sys : System) : List HostCall → System
  | [] => sys
  | c :: rest => run_host (exec_host sys c) rest

/-! ## The engine on word-addressed memory

The same source text once more, this time on the memory it runs on: a pointer
is a word address (`0` is the null pointer), `*(p + i)` is the word at address
`p + i`, and the nodes, the scratch buffer and the context blocks all lie in one
memory. The list model above agrees with it as long as no store goes past the
scratch buffer (`word_refines_inside_buffer`); this model shows what the code
does when one does. -/

namespace Word

/-- A machine word has 64 bits. -/
def WORD : Nat := 2 ^ 64

/-- Memory, the allocator's break and the global variables of the engine.
Memory is a sequence of 64-bit words, kept as the number whose digit number `a`
in base `2^64` is the word at address `a`. -/
structure Machine where
  mem : Nat
  brk : Nat
  lockdep_dependency_graph : Nat
  lockdep_total_dependencies : Nat
  lockdep_enabled : Nat
  lockdep_visited_buffer : Nat
  out : List Msg

/-- The word at address `a`: the memory shifted down by `a` words, cut to one
word. -/
def load (m : Machine) (a : Nat) : Nat :=
  (m.mem >>> (a * 64)) % WORD

/-- The machine after `*a = x`: the words below `a` and the words above `a` are
kept, the word at `a` becomes `x`. -/
def store (m : Machine) (a x : Nat) : Machine :=
  { m with
      mem := m.mem % (1 <<< (a * 64)) + ((x % WORD) <<< (a * 64)) +
        ((m.mem >>> ((a + 1) * 64)) <<< ((a + 1) * 64)) }

/-- Bytes in a word: `sizeof(uint64_t)`. -/
def SIZEOFUINT64 : Nat := 8

def DEPENDENCY_ENTRIES : Nat := 3

def HELD_LOCK_ENTRIES : Nat := 2

/-- Modelled from the spec: `smalloc`, the bump allocator that the host provides
(§6, "fixed-size allocations with no reclamation"). It returns the break and
moves it up by the size; the block is not cleared. -/
def smalloc (m : Machine) (size : Nat) : Nat × Machine :=
  (m.brk, { m with brk := m.brk + size / SIZEOFUINT64 })

/-- Modelled from the spec: `get_id_context`, the host's function that gives the
identifier of a context for the diagnostics (§6). The identifier is taken to be
the address of the context. -/
def get_id_context (context : Nat) : Nat :=
  context

/-! ### Dependency structure -/

def allocate_dependency (m : Machine) : Nat × Machine :=
  smalloc m (DEPENDENCY_ENTRIES * SIZEOFUINT64)

def get_dependency_from (m : Machine) (dep : Nat) : Nat := load m dep

def get_dependency_to (m : Machine) (dep : Nat) : Nat := load m (dep + 1)

def get_dependency_next (m : Machine) (dep : Nat) : Nat := load m (dep + 2)

def set_dependency_from (m : Machine) (dep from_ : Nat) : Machine := store m dep from_

def set_dependency_to (m : Machine) (dep to_ : Nat) : Machine := store m (dep + 1) to_

def set_dependency_next (m : Machine) (dep next : Nat) : Machine := store m (dep + 2) next

/-! ### Held lock structure -/

def allocate_held_lock (m : Machine) : Nat × Machine :=
  smalloc m (HELD_LOCK_ENTRIES * SIZEOFUINT64)

def get_held_lock_class (m : Machine) (held : Nat) : Nat := load m held

def get_held_lock_next (m : Machine) (held : Nat) : Nat := load m (held + 1)

def set_held_lock_class (m : Machine) (held lock_class : Nat) : Machine :=
  store m held lock_class

def set_held_lock_next (m : Machine) (held next : Nat) : Machine :=
  store m (held + 1) next

/-! ### Context extensions -/

def get_held_locks_head (m : Machine) (context : Nat) : Nat := load m (context + 35)

def get_held_locks_count (m : Machine) (context : Nat) : Nat := load m (context + 36)

def set_held_locks_head (m : Machine) (context head : Nat) : Machine :=
  store m (context + 35) head

def set_held_locks_count (m : Machine) (context count : Nat) : Machine :=
  store m (context + 36) count

/-! ### Held locks management

A `while` loop over a linked list takes a bound on its iterations; a list
without a cycle has fewer nodes than there are words below the break, and a
traversal that needs more gives `none`. -/

def add_held_lock (m : Machine) (context lock_class : Nat) : Machine :=
  let count := get_held_locks_count m context
  if count ≥ MAX_LOCKDEP_HELD_LOCKS then
    { m with
        out := m.out ++ [Msg.max_held_exceeded MAX_LOCKDEP_HELD_LOCKS (get_id_context context)] }
  else
    let a := allocate_held_lock m
    let held_lock := a.1
    let m1 := set_held_lock_class a.2 held_lock lock_class
    let head := get_held_locks_head m1 context
    let m2 := set_held_lock_next m1 held_lock head
    let m3 := set_held_locks_head m2 context held_lock
    set_held_locks_count m3 context (count + 1)

/-- The `while` loop of `remove_held_lock`. -/
def remove_held_lock_loop (m : Machine) (context lock_class : Nat) :
    Nat → Nat → Nat → Option Machine
  | 0, _, _ => none
  | fuel + 1, prev, current =>
    if current = 0 then some m
    else if get_held_lock_class m current = lock_class then
      let next := get_held_lock_next m current
      let m1 :=
        if prev = 0 then set_held_locks_head m context next
        else set_held_lock_next m prev next
      let count := get_held_locks_count m1 context
      some (set_held_locks_count m1 context (sub64 count 1))
    else remove_held_lock_loop m context lock_class fuel current (get_held_lock_next m current)

def remove_held_lock (m : Machine) (context lock_class : Nat) : Option Machine :=
  remove_held_lock_loop m context lock_class (m.brk + 1) 0 (get_held_locks_head m context)

/-- The `while` loop of `is_lock_held`. -/
def is_lock_held_loop (m : Machine) (lock_class : Nat) : Nat → Nat → Option Nat
  | 0, _ => none
  | fuel + 1, current =>
    if current = 0 then some 0
    else if get_held_lock_class m current = lock_class then some 1
    else is_lock_held_loop m lock_class fuel (get_held_lock_next m current)

def is_lock_held (m : Machine) (context lock_class : Nat) : Option Nat :=
  is_lock_held_loop m lock_class (m.brk + 1) (get_held_locks_head m context)

/-! ### Dependency graph management -/

/-- The `while` loop of `dependency_exists`. -/
def dependency_exists_loop (m : Machine) (from_ to_ : Nat) : Nat → Nat → Option Nat
  | 0, _ => none
  | fuel + 1, dep =>
    if dep = 0 then some 0
    else if get_dependency_from m dep = from_ then
      if get_dependency_to m dep = to_ then some 1
      else dependency_exists_loop m from_ to_ fuel (get_dependency_next m dep)
    else dependency_exists_loop m from_ to_ fuel (get_dependency_next m dep)

def dependency_exists (m : Machine) (from_ to_ : Nat) : Option Nat :=
  dependency_exists_loop m from_ to_ (m.brk + 1) m.lockdep_dependency_graph

def add_dependency (m : Machine) (from_ to_ : Nat) : Machine :=
  if m.lockdep_total_dependencies ≥ MAX_LOCKDEP_DEPENDENCIES then
    { m with out := m.out ++ [Msg.max_dependencies_reached MAX_LOCKDEP_DEPENDENCIES] }
  else
    let a := allocate_dependency m
    let new_dep := a.1
    let m1 := set_dependency_from a.2 new_dep from_
    let m2 := set_dependency_to m1 new_dep to_
    let m3 := set_dependency_next m2 new_dep m2.lockdep_dependency_graph
    { m3 with
        lockdep_dependency_graph := new_dep
        lockdep_total_dependencies := m3.lockdep_total_dependencies + 1 }

/-! ### Cycle detection (DFS) -/

/-- The `while` loop of `lockdep_init_visited`, entered with counter `i` and
`n = size - i` iterations left. -/
def lockdep_init_visited_loop (visited : Nat) (i : Nat) : Nat → Machine → Machine
  | 0, m => m
  | n + 1, m => lockdep_init_visited_loop visited (i + 1) n (store m (visited + i) 0)

def lockdep_init_visited (m : Machine) (visited size : Nat) : Machine :=
  lockdep_init_visited_loop visited 0 size m

/-- The `while` loop of `lockdep_is_visited`, entered with counter `i` and
`n = depth - i` iterations left. -/
def lockdep_is_visited_loop (m : Machine) (visited node : Nat) (i : Nat) : Nat → Nat
  | 0 => 0
  | n + 1 =>
    if load m (visited + i) = node then 1
    else lockdep_is_visited_loop m visited node (i + 1) n

def lockdep_is_visited (m : Machine) (visited depth node : Nat) : Nat :=
  lockdep_is_visited_loop m visited node 0 depth

/-- The `while` loop of `has_cycle_dfs`; `self` is the recursive call. -/
def has_cycle_dfs_loop (self : Nat → Nat → Nat → Nat → Machine → Option (Nat × Machine))
    (from_ to_ visited depth : Nat) : Nat → Nat → Machine → Option (Nat × Machine)
  | 0, _, _ => none
  | fuel + 1, dep, m =>
    if dep = 0 then some (0, m)
    else
      let dep_from := get_dependency_from m dep
      let dep_to := get_dependency_to m dep
      if dep_from = from_ then
        let already_visited := lockdep_is_visited m visited depth dep_to
        if already_visited = 0 then
          match self dep_to to_ visited (depth + 1) m with
          | none => none
          | some r =>
            if r.1 ≠ 0 then some (1, r.2)
            else
              has_cycle_dfs_loop self from_ to_ visited depth fuel
                (get_dependency_next r.2 dep) r.2
        else
          has_cycle_dfs_loop self from_ to_ visited depth fuel (get_dependency_next m dep) m
      else has_cycle_dfs_loop self from_ to_ visited depth fuel (get_dependency_next m dep) m

/-- The function `has_cycle_dfs` with `frames` activation frames available and
`fuel` iterations for each of its loops. -/
def has_cycle_dfs (fuel : Nat) :
    Nat → Nat → Nat → Nat → Nat → Machine → Option (Nat × Machine)
  | 0, _, _, _, _, _ => none
  | frames + 1, from_, to_, visited, depth, m =>
    if depth > MAX_LOCKDEP_HELD_LOCKS then some (1, m)
    else if from_ = to_ then some (1, m)
    else
      let m1 := store m (visited + depth) from_
      has_cycle_dfs_loop (has_cycle_dfs fuel frames) from_ to_ visited depth fuel
        m1.lockdep_dependency_graph m1

def would_create_cycle (m : Machine) (from_ to_ : Nat) : Option (Nat × Machine) :=
  let visited := m.lockdep_visited_buffer
  let m1 := lockdep_init_visited m visited MAX_LOCKDEP_HELD_LOCKS
  has_cycle_dfs (m1.brk + 1) (MAX_LOCKDEP_HELD_LOCKS + 2) to_ from_ visited 0 m1

/-! ### Deadlock warnings -/

/-- The edges printed by `print_dependency_chain`: the first ten of the list. -/
def print_dependency_chain_loop (m : Machine) : Nat → Nat → Nat → Option (List (Nat × Nat))
  | 0, _, _ => none
  | fuel + 1, dep, depth =>
    if dep = 0 then some []
    else if depth < 10 then
      match print_dependency_chain_loop m fuel (get_dependency_next m dep) (depth + 1) with
      | none => none
      | some rest => some ((get_dependency_from m dep, get_dependency_to m dep) :: rest)
    else print_dependency_chain_loop m fuel (get_dependency_next m dep) depth

def print_dependency_chain (m : Machine) : Option (List (Nat × Nat)) :=
  print_dependency_chain_loop m (m.brk + 1) m.lockdep_dependency_graph 0

/-- The classes printed by `print_held_locks`: the held list as memory has it. -/
def print_held_locks_loop (m : Machine) : Nat → Nat → Option (List Nat)
  | 0, _ => none
  | fuel + 1, held =>
    if held = 0 then some []
    else
      match print_held_locks_loop m fuel (get_held_lock_next m held) with
      | none => none
      | some rest => some (get_held_lock_class m held :: rest)

def print_held_locks (m : Machine) (context : Nat) : Option (List Nat) :=
  print_held_locks_loop m (m.brk + 1) (get_held_locks_head m context)

def print_deadlock_warning (m : Machine) (context from_class to_class : Nat) :
    Option Machine :=
  match print_held_locks m context, print_dependency_chain m with
  | some held, some chain =>
    some { m with
      out := m.out ++ [Msg.deadlock_detected (get_id_context context) to_class from_class
        held chain] }
  | _, _ => none

/-! ### Main lockdep functions -/

/-- The `while` loop of `lockdep_lock_acquire`: `0` when the loop returns denied,
`1` when it runs to its end. The class of the node is loaded when its turn
comes, and the next pointer after the body has run. -/
def lockdep_lock_acquire_loop (context lock_class : Nat) :
    Nat → Nat → Machine → Option (Nat × Machine)
  | 0, _, _ => none
  | fuel + 1, held, m =>
    if held = 0 then some (1, m)
    else
      let from_class := get_held_lock_class m held
      match dependency_exists m from_class lock_class with
      | none => none
      | some e =>
        if e = 0 then
          match would_create_cycle m from_class lock_class with
          | none => none
          | some r =>
            if r.1 ≠ 0 then
              match print_deadlock_warning r.2 context from_class lock_class with
              | none => none
              | some m1 => some (0, m1)
            else
              let m1 := add_dependency r.2 from_class lock_class
              lockdep_lock_acquire_loop context lock_class fuel (get_held_lock_next m1 held) m1
        else lockdep_lock_acquire_loop context lock_class fuel (get_held_lock_next m held) m

def lockdep_lock_acquire (m : Machine) (context lock_class : Nat) : Option (Nat × Machine) :=
  if m.lockdep_enabled = 0 then some (1, m)
  else
    match lockdep_lock_acquire_loop context lock_class (m.brk + 1)
        (get_held_locks_head m context) m with
    | none => none
    | some r =>
      if r.1 = 0 then some (0, r.2)
      else some (1, add_held_lock r.2 context lock_class)

def lockdep_lock_release (m : Machine) (context lock_class : Nat) : Option Machine :=
  if m.lockdep_enabled = 0 then some m
  else remove_held_lock m context lock_class

/-! ### Initialization -/

def init_lockdep (m : Machine) : Machine :=
  let m1 :=
    { m with
        lockdep_dependency_graph := 0
        lockdep_total_dependencies := 0
        lockdep_enabled := 1 }
  let a := smalloc m1 (MAX_LOCKDEP_HELD_LOCKS * SIZEOFUINT64)
  let m2 := { a.2 with lockdep_visited_buffer := a.1 }
  let m3 := lockdep_init_visited m2 m2.lockdep_visited_buffer MAX_LOCKDEP_HELD_LOCKS
  { m3 with
      out := m3.out ++ [Msg.initialized MAX_LOCKDEP_DEPENDENCIES MAX_LOCKDEP_HELD_LOCKS] }

def reset_lockdep (m : Machine) : Machine :=
  { m with
      lockdep_dependency_graph := 0
      lockdep_total_dependencies := 0
      lockdep_enabled := 1 }

/-! ### The engine driven by its host -/

/-- Words in a context block of the host, the two of the engine included. -/
def CONTEXTENTRIES : Nat := 37

/-- The address of the `i`-th context block of the host. -/
def context_at (i : Nat) : Nat :=
  1 + CONTEXTENTRIES * i

/-- The host before `init_lockdep`: `n` context blocks, allocated from word 1 on
and cleared, so that no context holds a lock. -/
def host (n : Nat) : Machine :=
  { mem := 0
    brk := 1 + CONTEXTENTRIES * n
    lockdep_dependency_graph := 0
    lockdep_total_dependencies := 0
    lockdep_enabled := 1
    lockdep_visited_buffer := 0
    out := [] }

/-- One call of the host on the context block `context_at x`: the word it
returns (for `lockdep_lock_acquire`) and the machine it leaves. -/
def exec (m : Machine) : Call → Option (Option Nat × Machine)
  | Call.acquire x lock_class =>
    match lockdep_lock_acquire m (context_at x) lock_class with
    | none => none
    | some r => some (some r.1, r.2)
  | Call.release x lock_class =>
    match lockdep_lock_release m (context_at x) lock_class with
    | none => none
    | some m1 => some (none, m1)
  | Call.reset => some (none, reset_lockdep m)

/-- The machine after a sequence of calls. -/
def run (m : Machine) : List Call → Option Machine
  | [] => some m
  | c :: rest =>
    match exec m c with
    | none => none
    | some r => run r.2 rest

/-- The words returned by the `lockdep_lock_acquire` calls of a sequence. -/
def results (m : Machine) : List Call → Option (List Nat)
  | [] => some []
  | c :: rest =>
    match exec m c with
    | none => none
    | some r =>
      match results r.2 rest, r.1 with
      | none, _ => none
      | some l, some x => some (x :: l)
      | some l, none => some l

/-- The held classes of the `x`-th context after a sequence of calls, head
first. -/
def held_after (m : Machine) (calls : List Call) (x : Nat) : Option (List Nat) :=
  match run m calls with
  | none => none
  | some m1 => print_held_locks m1 (context_at x)

/-- What the host sees of context `x` around the call `c` made after a sequence
of calls: the held classes and the count of `x` before the call, the word the
call returns, and the held classes and the count of `x` after it. -/
def observe (m : Machine) (calls : List Call) (c : Call) (x : Nat) :
    Option ((List Nat × Nat) × Option Nat × (List Nat × Nat)) :=
  match run m calls with
  | none => none
  | some m1 =>
    match print_held_locks m1 (context_at x), exec m1 c with
    | some before, some r =>
      match print_held_locks r.2 (context_at x) with
      | none => none
      | some after =>
        some ((before, get_held_locks_count m1 (context_at x)), r.1,
          (after, get_held_locks_count r.2 (context_at x)))
    | _, _ => none

/-- The two tests of the acquisition loop for a held class `h` and a requested
class `c`, made on the machine that a sequence of calls leaves: the word of
`dependency_exists` and the word of `would_create_cycle`. -/
def checks_after (m : Machine) (calls : List Call) (h c : Nat) : Option (Nat × Nat) :=
  match run m calls with
  | none => none
  | some m1 =>
    match dependency_exists m1 h c, would_create_cycle m1 h c with
    | some e, some r => some (e, r.1)
    | _, _ => none

end Word

/-! ## Specification vocabulary -/

/-- The chain `1 → 2 → ... → n + 1` of `n` edges, newest edge first. -/
def chain_edges : Nat → List (Nat × Nat)
  | 0 => []
  | n + 1 => (n + 1, n + 2) :: chain_edges n

/-- The size counter counts the edges of the list and is within the capacity. -/
def SizeCounterOK (s : Globals) : Prop :=
  s.lockdep_total_dependencies = s.lockdep_dependency_graph.length ∧
    s.lockdep_total_dependencies ≤ MAX_LOCKDEP_DEPENDENCIES

/-- A directed path of zero or more edges of the graph. -/
inductive Path (graph : List (Nat × Nat)) : Nat → Nat → Prop where
  | refl (a : Nat) : Path graph a a
  | step {a b c : Nat} : (a, b) ∈ graph → Path graph b c → Path graph a c

/-- No directed cycle: no edge `(a, b)` is closed by a path from `b` back to `a`.
A self-edge `(c, c)` is the cycle of one edge. -/
def Acyclic (graph : List (Nat × Nat)) : Prop :=
  ∀ a b, (a, b) ∈ graph → ¬ Path graph b a

/-- `WalkFrom graph n a`: a directed walk of `n` edges starts at `a`. -/
inductive WalkFrom (graph : List (Nat × Nat)) : Nat → Nat → Prop where
  | zero (a : Nat) : WalkFrom graph 0 a
  | succ {n a b : Nat} : (a, b) ∈ graph → WalkFrom graph n b → WalkFrom graph (n + 1) a

/-- A path all of whose nodes after the first avoid the set `A`. -/
inductive PathAvoiding (graph : List (Nat × Nat)) (A : Nat → Prop) : Nat → Nat → Prop where
  | refl (a : Nat) : PathAvoiding graph A a a
  | step {a b c : Nat} : (a, b) ∈ graph → ¬ A b → PathAvoiding graph A b c →
      PathAvoiding graph A a c

/-- The nodes recorded in the first `depth` words of the scratch buffer. -/
def OnStack (visited : Nat → Nat) (depth : Nat) (x : Nat) : Prop :=
  ∃ i, i < depth ∧ visited i = x

/-- Number of deadlock reports in the output. -/
def deadlock_reports : List Msg → Nat
  | [] => 0
  | Msg.deadlock_detected _ _ _ _ _ :: rest => deadlock_reports rest + 1
  | _ :: rest => deadlock_reports rest

/-- The calls `acquire k+1, release k` repeated for `k = first, first+1, ...`,
`n` times, by context `x`: each adds the edge `(k, k+1)`. -/
def chain_calls (x : Nat) : Nat → Nat → List Call
  | _, 0 => []
  | first, n + 1 =>
    Call.acquire x (first + 1) :: Call.release x first :: chain_calls x (first + 1) n

/-- The calls `acquire first`, `acquire (first + 1)`, ..., `n` of them, by
context `x`. -/
def acquire_calls (x : Nat) : Nat → Nat → List Call
  | _, 0 => []
  | first, n + 1 => Call.acquire x first :: acquire_calls x (first + 1) n

/-- Context 1 takes class 0, in the first held-lock node that is allocated.
Context 0 records the edge `(1, 0)`, gives class 0 back and builds the chain
`1 → 2 → ... → 17`. -/
def denied_call_setup : List Call :=
  Call.acquire 1 0 :: Call.acquire 0 1 :: Call.acquire 0 0 :: Call.release 0 0 ::
    chain_calls 0 1 16

/-- Context 0 takes class 100, in the first held-lock node that is allocated;
context 1 builds the chain `1 → 2 → ... → 17`. -/
def granted_call_setup : List Call :=
  Call.acquire 0 100 :: Call.acquire 1 1 :: chain_calls 1 1 16

/-- Context 0 takes classes 1 and 2; context 1 builds the chain
`10 → 11 → ... → 26`. -/
def criterion_setup : List Call :=
  Call.acquire 0 1 :: Call.acquire 0 2 :: Call.acquire 1 10 :: chain_calls 1 10 16

/-- Context 2 takes class 100, in the first held-lock node that is allocated;
context 1 builds the chain `1 → 2 → ... → 17`, gives class 17 back and takes
class 0. -/
def other_context_setup : List Call :=
  Call.acquire 2 100 :: Call.acquire 1 1 :: chain_calls 1 1 16 ++
    [Call.release 1 17, Call.acquire 1 0]

/-- Context 0 takes class 0, in the first held-lock node that is allocated;
context 1 builds the chain `1 → 2 → ... → 17` and gives class 17 back; context 0
takes class 17; context 2 takes class 100 and then class 1. -/
def duplicate_class_trace : List Call :=
  Call.acquire 0 0 :: Call.acquire 1 1 :: chain_calls 1 1 16 ++
    [Call.release 1 17, Call.acquire 0 17, Call.acquire 2 100, Call.acquire 2 1]

/-- Context 0 takes class 100, in the first held-lock node that is allocated,
and then the classes 201 to 215: it holds 16 locks. Context 2 takes the classes
201 to 215 and then class 1, which records the edges `(201, 1)`, ..., `(215, 1)`.
Context 1 builds the chain `1 → 2 → ... → 17`. -/
def limit_setup : List Call :=
  Call.acquire 0 100 :: acquire_calls 0 201 15 ++ acquire_calls 2 201 15 ++
    [Call.acquire 2 1] ++ Call.acquire 1 1 :: chain_calls 1 1 16

namespace Word

/-- `DepList m p addrs g`: the dependency list that starts at pointer `p` has its
nodes at the addresses `addrs` and holds the edges `g`, in this order. -/
def DepList (m : Machine) : Nat → List Nat → List (Nat × Nat) → Prop
  | p, [], [] => p = 0
  | p, q :: addrs, e :: g =>
    p = q ∧ q ≠ 0 ∧ load m q = e.1 ∧ load m (q + 1) = e.2 ∧
      DepList m (load m (q + 2)) addrs g
  | _, _, _ => False

/-- `HeldList m p addrs l`: the held-lock list that starts at pointer `p` has its
nodes at the addresses `addrs` and holds the classes `l`, in this order. -/
def HeldList (m : Machine) : Nat → List Nat → List Nat → Prop
  | p, [], [] => p = 0
  | p, q :: addrs, c :: l =>
    p = q ∧ q ≠ 0 ∧ load m q = c ∧ HeldList m (load m (q + 1)) addrs l
  | _, _, _ => False

/-- The address of the scratch buffer on a host with `n` contexts: the break of
the host, where `init_lockdep` allocates. -/
def buffer_at (n : Nat) : Nat :=
  1 + CONTEXTENTRIES * n

/-- A call that the host with `n` contexts can make: it names one of its
contexts, and a class asked for is a machine word. -/
def Fits (n : Nat) : Call → Prop
  | Call.acquire x c => x < n ∧ c < WORD
  | Call.release x _ => x < n
  | Call.reset => True

instance Fits.decidable (n : Nat) : (call : Call) → Decidable (Fits n call)
  | Call.acquire x c => inferInstanceAs (Decidable (x < n ∧ c < WORD))
  | Call.release x _ => inferInstanceAs (Decidable (x < n))
  | Call.reset => inferInstanceAs (Decidable True)

end Word

/-! ## Basic facts about the loops -/

theorem add_held_lock_def (s : Globals) (ctx : Ctx) (c : Nat) :
    add_held_lock s ctx c =
      if ctx.held_locks_count ≥ MAX_LOCKDEP_HELD_LOCKS then
        ({ s with out := s.out ++ [Msg.max_held_exceeded MAX_LOCKDEP_HELD_LOCKS ctx.id] }, ctx)
      else
        (s, { ctx with
                held_locks_head := c :: ctx.held_locks_head
                held_locks_count := ctx.held_locks_count + 1 }) := rfl

theorem lockdep_lock_acquire_def (s : Globals) (ctx : Ctx) (c : Nat) :
    lockdep_lock_acquire s ctx c =
      if s.lockdep_enabled = 0 then (1, s, ctx)
      else if (lockdep_lock_acquire_loop ctx c ctx.held_locks_head s).1 = 0 then
        (0, (lockdep_lock_acquire_loop ctx c ctx.held_locks_head s).2, ctx)
      else
        (1, (add_held_lock (lockdep_lock_acquire_loop ctx c ctx.held_locks_head s).2 ctx c).1,
          (add_held_lock (lockdep_lock_acquire_loop ctx c ctx.held_locks_head s).2 ctx c).2) :=
  rfl

theorem is_lock_held_loop_eq_zero_iff (l : List Nat) (c : Nat) :
    is_lock_held_loop l c = 0 ↔ c ∉ l := by
  induction l with
  | nil => simp [is_lock_held_loop]
  | cons x rest ih =>
    by_cases h : x = c
    · simp [is_lock_held_loop, h]
    · have h2 : ¬ c = x := fun e => h e.symm
      simp [is_lock_held_loop, h, h2, ih]

theorem dependency_exists_loop_eq_zero_iff (g : List (Nat × Nat)) (a b : Nat) :
    dependency_exists_loop g a b = 0 ↔ (a, b) ∉ g := by
  induction g with
  | nil => simp [dependency_exists_loop]
  | cons e rest ih =>
    obtain ⟨x, y⟩ := e
    by_cases h1 : x = a
    · by_cases h2 : y = b
      · simp [dependency_exists_loop, h1, h2]
      · have h3 : ¬ b = y := fun e => h2 e.symm
        simp [dependency_exists_loop, h1, h2, h3, ih]
    · have h3 : ¬ a = x := fun e => h1 e.symm
      simp [dependency_exists_loop, h1, h3, ih]

theorem lockdep_is_visited_loop_eq_zero_iff (v : Nat → Nat) (x : Nat) (n i : Nat) :
    lockdep_is_visited_loop v x i n = 0 ↔ ∀ j, i ≤ j → j < i + n → v j ≠ x := by
  induction n generalizing i with
  | zero =>
    simp only [lockdep_is_visited_loop, true_iff]
    intro j h1 h2
    omega
  | succ n ih =>
    by_cases h : v i = x
    · simp only [lockdep_is_visited_loop, h, if_true]
      constructor
      · intro h0
        exact absurd h0 (by decide)
      · intro hall
        exact absurd h (hall i (Nat.le_refl i) (by omega))
    · simp only [lockdep_is_visited_loop, h, if_false, ih]
      constructor
      · intro hall j h1 h2
        by_cases hj : j = i
        · rw [hj]
          exact h
        · exact hall j (by omega) (by omega)
      · intro hall j h1 h2
        exact hall j (by omega) (by omega)

theorem lockdep_is_visited_eq_zero_iff (v : Nat → Nat) (d x : Nat) :
    lockdep_is_visited v d x = 0 ↔ ¬ OnStack v d x := by
  unfold lockdep_is_visited OnStack
  rw [lockdep_is_visited_loop_eq_zero_iff]
  constructor
  · rintro h ⟨i, hi, hv⟩
    exact h i (Nat.zero_le i) (by omega) hv
  · intro h j _ hj hv
    exact h ⟨j, by omega, hv⟩

theorem onStack_congr {v w : Nat → Nat} {d : Nat} (h : ∀ i, i < d → w i = v i) (x : Nat) :
    OnStack w d x ↔ OnStack v d x := by
  unfold OnStack
  constructor
  · rintro ⟨i, hi, e⟩
    exact ⟨i, hi, by rw [← h i hi]; exact e⟩
  · rintro ⟨i, hi, e⟩
    exact ⟨i, hi, by rw [h i hi]; exact e⟩

theorem onStack_store (v : Nat → Nat) (d a x : Nat) :
    OnStack (store v d a) (d + 1) x ↔ OnStack v d x ∨ x = a := by
  unfold OnStack store
  constructor
  · rintro ⟨i, hi, e⟩
    by_cases hid : i = d
    · right
      simp only [hid, if_true] at e
      exact e.symm
    · left
      simp only [hid, if_false] at e
      exact ⟨i, by omega, e⟩
  · rintro (⟨i, hi, e⟩ | e)
    · refine ⟨i, by omega, ?_⟩
      have hid : ¬ i = d := by omega
      simp only [hid, if_false]
      exact e
    · exact ⟨d, by omega, by simp [e]⟩

/-! ## The recursive equation of `has_cycle_dfs` -/

theorem has_cycle_dfs_loop_congr
    (f1 f2 : Nat → Nat → (Nat → Nat) → Nat → Nat × (Nat → Nat)) (a t d : Nat)
    (h : ∀ x w, f1 x t w (d + 1) = f2 x t w (d + 1)) (l : List (Nat × Nat)) (v : Nat → Nat) :
    has_cycle_dfs_loop f1 a t d l v = has_cycle_dfs_loop f2 a t d l v := by
  induction l generalizing v with
  | nil => rfl
  | cons e rest ih =>
    simp only [has_cycle_dfs_loop, h, ih]

/-- The source text of `has_cycle_dfs`: the function is a solution of the
recursive equation that the C body states. -/
theorem has_cycle_dfs_eq (g : List (Nat × Nat)) (a t : Nat) (v : Nat → Nat) (d : Nat) :
    has_cycle_dfs g a t v d =
      if d > MAX_LOCKDEP_HELD_LOCKS then (1, v)
      else if a = t then (1, v)
      else has_cycle_dfs_loop (has_cycle_dfs g) a t d g (store v d a) := by
  by_cases hd : d > MAX_LOCKDEP_HELD_LOCKS
  · have h0 : MAX_LOCKDEP_HELD_LOCKS + 1 - d = 0 := by omega
    simp only [has_cycle_dfs, h0, has_cycle_dfs_fuel, hd, if_true]
  · have h1 : MAX_LOCKDEP_HELD_LOCKS + 1 - d = (MAX_LOCKDEP_HELD_LOCKS - d) + 1 := by omega
    simp only [has_cycle_dfs, h1, has_cycle_dfs_fuel, hd, if_false]
    by_cases hat : a = t
    · simp only [hat, if_true]
    · simp only [hat, if_false]
      apply has_cycle_dfs_loop_congr
      intro x w
      have h2 : MAX_LOCKDEP_HELD_LOCKS + 1 - (d + 1) = MAX_LOCKDEP_HELD_LOCKS - d := by omega
      simp only [has_cycle_dfs, h2]

/-! ## Paths -/

theorem Path.trans {g : List (Nat × Nat)} {a b c : Nat} (h1 : Path g a b) (h2 : Path g b c) :
    Path g a c := by
  induction h1 with
  | refl => exact h2
  | step e _ ih => exact Path.step e (ih h2)

theorem Path.single {g : List (Nat × Nat)} {a b : Nat} (h : (a, b) ∈ g) : Path g a b :=
  Path.step h (Path.refl b)

theorem Path.mono {g g2 : List (Nat × Nat)} (hsub : ∀ e, e ∈ g → e ∈ g2) {a b : Nat}
    (h : Path g a b) : Path g2 a b := by
  induction h with
  | refl => exact Path.refl _
  | step e _ ih => exact Path.step (hsub _ e) ih

theorem PathAvoiding.of_path {g : List (Nat × Nat)} {A : Nat → Prop} (hA : ∀ x, ¬ A x)
    {a b : Nat} (h : Path g a b) : PathAvoiding g A a b := by
  induction h with
  | refl => exact PathAvoiding.refl _
  | step e _ ih => exact PathAvoiding.step e (hA _) ih

theorem PathAvoiding.weaken {g : List (Nat × Nat)} {A B : Nat → Prop} (hAB : ∀ x, B x → A x)
    {a b : Nat} (h : PathAvoiding g A a b) : PathAvoiding g B a b := by
  induction h with
  | refl => exact PathAvoiding.refl _
  | step e hn _ ih => exact PathAvoiding.step e (fun hb => hn (hAB _ hb)) ih

/-- A path can be cut at the last visit of a node `a`: either it ends in `a`, or
its tail after `a` never comes back to `a`, or it never meets `a` at all. -/
theorem PathAvoiding.cut {g : List (Nat × Nat)} {A : Nat → Prop} {b c : Nat}
    (h : PathAvoiding g A b c) (a : Nat) :
    a = c ∨
      (∃ x, (a, x) ∈ g ∧ ¬ A x ∧ PathAvoiding g (fun y => A y ∨ y = a) x c) ∨
      (b ≠ a ∧ PathAvoiding g (fun y => A y ∨ y = a) b c) := by
  induction h with
  | refl b =>
    by_cases hb : b = a
    · exact Or.inl hb.symm
    · exact Or.inr (Or.inr ⟨hb, PathAvoiding.refl _⟩)
  | @step b x c e hn _ ih =>
    rcases ih with h1 | h2 | ⟨hx, h3⟩
    · exact Or.inl h1
    · exact Or.inr (Or.inl h2)
    · by_cases hb : b = a
      · subst hb
        exact Or.inr (Or.inl ⟨x, e, hn, h3⟩)
      · refine Or.inr (Or.inr ⟨hb, PathAvoiding.step e ?_ h3⟩)
        rintro (hax | hxa)
        · exact hn hax
        · exact hx hxa

theorem PathAvoiding.next {g : List (Nat × Nat)} {A : Nat → Prop} {a t : Nat}
    (h : PathAvoiding g A a t) (hne : a ≠ t) :
    ∃ x, (a, x) ∈ g ∧ ¬ A x ∧ PathAvoiding g (fun y => A y ∨ y = a) x t := by
  rcases h.cut a with h1 | h2 | ⟨h3, _⟩
  · exact absurd h1 hne
  · exact h2
  · exact absurd rfl h3

/-! ## The search: frame, completeness, soundness -/

theorem has_cycle_dfs_loop_frame
    (f : Nat → Nat → (Nat → Nat) → Nat → Nat × (Nat → Nat)) (a t d : Nat)
    (hf : ∀ x w i, i ≤ d → (f x t w (d + 1)).2 i = w i) (l : List (Nat × Nat))
    (v : Nat → Nat) (i : Nat) (hi : i ≤ d) :
    (has_cycle_dfs_loop f a t d l v).2 i = v i := by
  induction l generalizing v with
  | nil => rfl
  | cons e rest ih =>
    simp only [has_cycle_dfs_loop]
    split_ifs
    · exact hf _ _ _ hi
    · rw [ih, hf _ _ _ hi]
    · exact ih _
    · exact ih _

/-- A call at depth `d` leaves the words below `d` as they were. -/
theorem has_cycle_dfs_frame (g : List (Nat × Nat)) (n : Nat) :
    ∀ d, MAX_LOCKDEP_HELD_LOCKS + 1 - d = n → ∀ a t v i, i < d →
      (has_cycle_dfs g a t v d).2 i = v i := by
  induction n with
  | zero =>
    intro d hd a t v i _
    have h : d > MAX_LOCKDEP_HELD_LOCKS := by omega
    rw [has_cycle_dfs_eq]
    simp only [h, if_true]
  | succ n ih =>
    intro d hd a t v i hi
    rw [has_cycle_dfs_eq]
    split_ifs
    · rfl
    · rfl
    · rw [has_cycle_dfs_loop_frame (has_cycle_dfs g) a t d
        (fun x w j hj => ih (d + 1) (by omega) x t w j (by omega)) g _ i (by omega)]
      have hid : ¬ i = d := by omega
      simp only [store, hid, if_false]

theorem has_cycle_dfs_frame_le (g : List (Nat × Nat)) (d a t : Nat) (v : Nat → Nat) (i : Nat)
    (hi : i < d) : (has_cycle_dfs g a t v d).2 i = v i :=
  has_cycle_dfs_frame g _ d rfl a t v i hi

theorem has_cycle_dfs_loop_complete (g : List (Nat × Nat))
    (f : Nat → Nat → (Nat → Nat) → Nat → Nat × (Nat → Nat)) (a t d b : Nat) (v0 : Nat → Nat)
    (hf : ∀ x w i, i ≤ d → (f x t w (d + 1)).2 i = w i)
    (hrec : ∀ x w, PathAvoiding g (OnStack w (d + 1)) x t → (f x t w (d + 1)).1 = 1)
    (hb : ¬ OnStack v0 d b) (hpath : PathAvoiding g (OnStack v0 (d + 1)) b t)
    (l : List (Nat × Nat)) (hmem : (a, b) ∈ l) (w : Nat → Nat)
    (hw : ∀ i, i ≤ d → w i = v0 i) :
    (has_cycle_dfs_loop f a t d l w).1 = 1 := by
  induction l generalizing w with
  | nil => simp at hmem
  | cons e rest ih =>
    simp only [has_cycle_dfs_loop]
    split_ifs with h1 h2 h3
    · rfl
    · -- the recursive call on `e.2` returned 0
      have hne : e ≠ (a, b) := by
        rintro rfl
        apply h3
        have := hrec b w (hpath.weaken (fun x hx =>
          (onStack_congr (fun i hi => hw i (by omega)) x).1 hx))
        simp only at this
        rw [this]
        decide
      have hmem2 : (a, b) ∈ rest := by
        rcases List.mem_cons.1 hmem with h | h
        · exact absurd h.symm hne
        · exact h
      exact ih hmem2 _ (fun i hi => by rw [hf _ _ _ hi, hw i hi])
    · -- `e.2` is on the stack
      have hne : e ≠ (a, b) := by
        rintro rfl
        apply h2
        rw [lockdep_is_visited_eq_zero_iff]
        intro hs
        exact hb ((onStack_congr (fun i hi => hw i (by omega)) b).1 hs)
      have hmem2 : (a, b) ∈ rest := by
        rcases List.mem_cons.1 hmem with h | h
        · exact absurd h.symm hne
        · exact h
      exact ih hmem2 _ hw
    · have hne : e ≠ (a, b) := by
        rintro rfl
        exact h1 rfl
      have hmem2 : (a, b) ∈ rest := by
        rcases List.mem_cons.1 hmem with h | h
        · exact absurd h.symm hne
        · exact h
      exact ih hmem2 _ hw

/-- Completeness of the search: a path from `a` to `t` whose nodes after `a` are
not on the stack makes the call return 1. -/
theorem has_cycle_dfs_complete (g : List (Nat × Nat)) (n : Nat) :
    ∀ d, MAX_LOCKDEP_HELD_LOCKS + 1 - d = n → ∀ a t v,
      PathAvoiding g (OnStack v d) a t → (has_cycle_dfs g a t v d).1 = 1 := by
  induction n with
  | zero =>
    intro d hd a t v _
    have h : d > MAX_LOCKDEP_HELD_LOCKS := by omega
    rw [has_cycle_dfs_eq]
    simp only [h, if_true]
  | succ n ih =>
    intro d hd a t v hp
    rw [has_cycle_dfs_eq]
    split_ifs with h1 h2
    · rfl
    · rfl
    · obtain ⟨b, hab, hnb, hrest⟩ := hp.next h2
      refine has_cycle_dfs_loop_complete g (has_cycle_dfs g) a t d b (store v d a)
        (fun x w i hi => has_cycle_dfs_frame_le g (d + 1) x t w i (by omega))
        (fun x w hx => ih (d + 1) (by omega) x t w hx) ?_ ?_ g hab _ (fun _ _ => rfl)
      · intro hs
        apply hnb
        refine (onStack_congr (fun i hi => ?_) b).1 hs
        have hid : ¬ i = d := by omega
        simp only [store, hid, if_false]
      · exact hrest.weaken (fun x hx => (onStack_store v d a x).1 hx)

theorem has_cycle_dfs_loop_sound
    (f : Nat → Nat → (Nat → Nat) → Nat → Nat × (Nat → Nat)) (a t d : Nat)
    (l : List (Nat × Nat)) (v : Nat → Nat)
    (h : (has_cycle_dfs_loop f a t d l v).1 ≠ 0) :
    ∃ x w, (a, x) ∈ l ∧ (f x t w (d + 1)).1 ≠ 0 := by
  induction l generalizing v with
  | nil => simp [has_cycle_dfs_loop] at h
  | cons e rest ih =>
    simp only [has_cycle_dfs_loop] at h
    split_ifs at h with h1 h2 h3
    · exact ⟨e.2, v, by rw [← h1]; exact List.mem_cons_self _ _, h3⟩
    · obtain ⟨x, w, hm, hr⟩ := ih _ h
      exact ⟨x, w, List.mem_cons_of_mem _ hm, hr⟩
    · obtain ⟨x, w, hm, hr⟩ := ih _ h
      exact ⟨x, w, List.mem_cons_of_mem _ hm, hr⟩
    · obtain ⟨x, w, hm, hr⟩ := ih _ h
      exact ⟨x, w, List.mem_cons_of_mem _ hm, hr⟩

/-- Soundness of the search up to the depth bound: a nonzero answer comes from
a path to the target or from a walk that reaches depth
`MAX_LOCKDEP_HELD_LOCKS + 1`. -/
theorem has_cycle_dfs_sound (g : List (Nat × Nat)) (n : Nat) :
    ∀ d, MAX_LOCKDEP_HELD_LOCKS + 1 - d = n → ∀ a t v,
      (has_cycle_dfs g a t v d).1 ≠ 0 → Path g a t ∨ WalkFrom g n a := by
  induction n with
  | zero =>
    intro d _ a t v _
    exact Or.inr (WalkFrom.zero a)
  | succ n ih =>
    intro d hd a t v hr
    rw [has_cycle_dfs_eq] at hr
    split_ifs at hr with h1 h2
    · omega
    · exact Or.inl (h2 ▸ Path.refl a)
    · obtain ⟨x, w, hm, hx⟩ := has_cycle_dfs_loop_sound _ a t d g _ hr
      rcases ih (d + 1) (by omega) x t w hx with hp | hw
      · exact Or.inl (Path.step hm hp)
      · exact Or.inr (WalkFrom.succ hm hw)

/-! ## `would_create_cycle` -/

theorem would_create_cycle_graph (s : Globals) (a b : Nat) :
    (would_create_cycle s a b).2.lockdep_dependency_graph = s.lockdep_dependency_graph := rfl

theorem would_create_cycle_total (s : Globals) (a b : Nat) :
    (would_create_cycle s a b).2.lockdep_total_dependencies = s.lockdep_total_dependencies :=
  rfl

theorem would_create_cycle_enabled (s : Globals) (a b : Nat) :
    (would_create_cycle s a b).2.lockdep_enabled = s.lockdep_enabled := rfl

theorem would_create_cycle_out (s : Globals) (a b : Nat) :
    (would_create_cycle s a b).2.out = s.out := rfl

theorem would_create_cycle_complete (s : Globals) (a b : Nat)
    (h : Path s.lockdep_dependency_graph b a) : (would_create_cycle s a b).1 = 1 := by
  unfold would_create_cycle
  refine has_cycle_dfs_complete _ _ 0 rfl b a _ (PathAvoiding.of_path ?_ h)
  rintro x ⟨i, hi, _⟩
  omega

theorem would_create_cycle_sound (s : Globals) (a b : Nat)
    (h : (would_create_cycle s a b).1 ≠ 0) :
    Path s.lockdep_dependency_graph b a ∨
      WalkFrom s.lockdep_dependency_graph (MAX_LOCKDEP_HELD_LOCKS + 1) b :=
  has_cycle_dfs_sound _ _ 0 rfl b a _ h

/-! ## Graph invariants of the acquisition protocol -/

theorem add_dependency_graph (s : Globals) (a b : Nat) :
    (add_dependency s a b).lockdep_dependency_graph = s.lockdep_dependency_graph ∨
      (add_dependency s a b).lockdep_dependency_graph = (a, b) :: s.lockdep_dependency_graph := by
  unfold add_dependency
  split_ifs
  · exact Or.inl rfl
  · exact Or.inr rfl

theorem add_dependency_enabled (s : Globals) (a b : Nat) :
    (add_dependency s a b).lockdep_enabled = s.lockdep_enabled := by
  unfold add_dependency
  split_ifs <;> rfl

theorem add_held_lock_graph (s : Globals) (ctx : Ctx) (c : Nat) :
    (add_held_lock s ctx c).1.lockdep_dependency_graph = s.lockdep_dependency_graph := by
  rw [add_held_lock_def]
  split_ifs <;> rfl

theorem add_held_lock_enabled (s : Globals) (ctx : Ctx) (c : Nat) :
    (add_held_lock s ctx c).1.lockdep_enabled = s.lockdep_enabled := by
  rw [add_held_lock_def]
  split_ifs <;> rfl

/-- Invariant rule for the loop of `lockdep_lock_acquire`: a property of the
graph that survives the insertion of an absent edge `(h, c)` with no path from
`c` back to `h` survives the loop. -/
theorem lockdep_lock_acquire_loop_graph_inv (P : List (Nat × Nat) → Prop) (ctx : Ctx) (c : Nat)
    (hstep : ∀ g h, P g → (h, c) ∉ g → ¬ Path g c h → P ((h, c) :: g))
    (l : List Nat) (s : Globals) (hP : P s.lockdep_dependency_graph) :
    P (lockdep_lock_acquire_loop ctx c l s).2.lockdep_dependency_graph := by
  induction l generalizing s with
  | nil => exact hP
  | cons h rest ih =>
    simp only [lockdep_lock_acquire_loop]
    split_ifs with h1 h2
    · exact hP
    · apply ih
      have hr : (would_create_cycle s h c).1 = 0 := by
        by_contra hne
        exact h2 hne
      have hnp : ¬ Path s.lockdep_dependency_graph c h := by
        intro hp
        rw [would_create_cycle_complete s h c hp] at hr
        exact absurd hr (by decide)
      have hnm : (h, c) ∉ s.lockdep_dependency_graph :=
        (dependency_exists_loop_eq_zero_iff _ _ _).1 h1
      rcases add_dependency_graph (would_create_cycle s h c).2 h c with e | e
      · rw [e]
        exact hP
      · rw [e]
        exact hstep _ _ hP hnm hnp
    · exact ih _ hP

theorem lockdep_lock_acquire_loop_enabled (ctx : Ctx) (c : Nat) (l : List Nat) (s : Globals) :
    (lockdep_lock_acquire_loop ctx c l s).2.lockdep_enabled = s.lockdep_enabled := by
  induction l generalizing s with
  | nil => rfl
  | cons h rest ih =>
    simp only [lockdep_lock_acquire_loop]
    split_ifs
    · rfl
    · rw [ih, add_dependency_enabled]
      rfl
    · exact ih _

theorem lockdep_lock_acquire_graph_inv (P : List (Nat × Nat) → Prop) (ctx : Ctx) (c : Nat)
    (hstep : ∀ g h, P g → (h, c) ∉ g → ¬ Path g c h → P ((h, c) :: g))
    (s : Globals) (hP : P s.lockdep_dependency_graph) :
    P (lockdep_lock_acquire s ctx c).2.1.lockdep_dependency_graph := by
  rw [lockdep_lock_acquire_def]
  split_ifs
  · exact hP
  · exact lockdep_lock_acquire_loop_graph_inv P ctx c hstep _ s hP
  · simp only [add_held_lock_graph]
    exact lockdep_lock_acquire_loop_graph_inv P ctx c hstep _ s hP

theorem lockdep_lock_release_globals (s : Globals) (ctx : Ctx) (c : Nat) :
    (lockdep_lock_release s ctx c).1 = s := by
  unfold lockdep_lock_release
  split_ifs <;> rfl

/-- Invariant rule for call sequences. -/
theorem run_graph_inv (P : List (Nat × Nat) → Prop) (hnil : P [])
    (hstep : ∀ g h c, P g → (h, c) ∉ g → ¬ Path g c h → P ((h, c) :: g))
    (calls : List Call) (sys : System) (hP : P sys.globals.lockdep_dependency_graph) :
    P (run sys calls).globals.lockdep_dependency_graph := by
  induction calls generalizing sys with
  | nil => exact hP
  | cons call rest ih =>
    apply ih
    cases call with
    | acquire x c =>
      exact lockdep_lock_acquire_graph_inv P _ c (fun g h => hstep g h c) _ hP
    | release x c =>
      simp only [exec, lockdep_lock_release_globals]
      exact hP
    | reset => exact hnil

/-- A path in the graph extended by the edge `(h, c)` is a path of the old
graph, or goes through the new edge. -/
theorem Path.of_cons {g : List (Nat × Nat)} {h c a b : Nat} (hp : Path ((h, c) :: g) a b) :
    Path g a b ∨ (Path g a h ∧ Path g c b) := by
  induction hp with
  | refl a => exact Or.inl (Path.refl a)
  | @step a x b e _ ih =>
    rcases List.mem_cons.1 e with he | he
    · have hah : a = h := congrArg Prod.fst he
      have hxc : x = c := congrArg Prod.snd he
      subst hah
      subst hxc
      rcases ih with h1 | ⟨_, h2⟩
      · exact Or.inr ⟨Path.refl _, h1⟩
      · exact Or.inr ⟨Path.refl _, h2⟩
    · rcases ih with h1 | ⟨h1, h2⟩
      · exact Or.inl (Path.step he h1)
      · exact Or.inr ⟨Path.step he h1, h2⟩

theorem Acyclic.cons {g : List (Nat × Nat)} {h c : Nat} (hg : Acyclic g)
    (hnp : ¬ Path g c h) : Acyclic ((h, c) :: g) := by
  intro a b e hp
  rcases List.mem_cons.1 e with he | he
  · have hah : a = h := congrArg Prod.fst he
    have hbc : b = c := congrArg Prod.snd he
    subst hah
    subst hbc
    rcases hp.of_cons with h1 | ⟨h1, _⟩
    · exact hnp h1
    · exact hnp h1
  · rcases hp.of_cons with h1 | ⟨h1, h2⟩
    · exact hg a b he h1
    · exact hnp (h2.trans (Path.step he h1))

theorem acyclic_nil : Acyclic [] := by
  intro a b e
  simp at e

/-! ## Held-lock registry -/

theorem remove_held_lock_loop_eq (l : List Nat) (c : Nat) :
    remove_held_lock_loop l c = if c ∈ l then some (l.erase c) else none := by
  induction l with
  | nil => simp [remove_held_lock_loop]
  | cons x rest ih =>
    by_cases h : x = c
    · subst h
      simp [remove_held_lock_loop]
    · have h2 : ¬ c = x := fun e => h e.symm
      simp only [remove_held_lock_loop, h, if_false, ih, List.mem_cons, h2, false_or]
      split_ifs with hm
      · have hb : (x == c) = false := by simpa using h
        simp [List.erase_cons, hb]
      · rfl

theorem remove_held_lock_eq (ctx : Ctx) (c : Nat) :
    remove_held_lock ctx c =
      if c ∈ ctx.held_locks_head then
        { ctx with
            held_locks_head := ctx.held_locks_head.erase c
            held_locks_count := sub64 ctx.held_locks_count 1 }
      else ctx := by
  unfold remove_held_lock
  rw [remove_held_lock_loop_eq]
  split_ifs <;> rfl

theorem sub64_one {n : Nat} (h1 : 1 ≤ n) (h2 : n < 2 ^ 64) : sub64 n 1 = n - 1 := by
  unfold sub64
  have e : n + 2 ^ 64 - 1 = (n - 1) + 2 ^ 64 := by omega
  rw [e, Nat.add_mod_right]
  exact Nat.mod_eq_of_lt (by omega)

theorem add_held_lock_count_inv (s : Globals) (ctx : Ctx) (c : Nat)
    (h : ctx.held_locks_count = ctx.held_locks_head.length) :
    (add_held_lock s ctx c).2.held_locks_count =
      (add_held_lock s ctx c).2.held_locks_head.length := by
  rw [add_held_lock_def]
  split_ifs
  · exact h
  · simp [h]

theorem remove_held_lock_count_inv (ctx : Ctx) (c : Nat)
    (h : ctx.held_locks_count = ctx.held_locks_head.length) (hw : ctx.held_locks_count < 2 ^ 64) :
    (remove_held_lock ctx c).held_locks_count = (remove_held_lock ctx c).held_locks_head.length ∧
      ((remove_held_lock ctx c).held_locks_count = ctx.held_locks_count ∨
        (remove_held_lock ctx c).held_locks_count + 1 = ctx.held_locks_count) := by
  rw [remove_held_lock_eq]
  split_ifs with hm
  · have hpos : 1 ≤ ctx.held_locks_head.length := List.length_pos_of_mem hm
    have hs : sub64 ctx.held_locks_count 1 = ctx.held_locks_count - 1 :=
      sub64_one (by omega) hw
    simp only [hs, List.length_erase_of_mem hm]
    omega
  · exact ⟨h, Or.inl rfl⟩

theorem lockdep_lock_acquire_context (s : Globals) (ctx : Ctx) (c : Nat) :
    (lockdep_lock_acquire s ctx c).2.2 = ctx ∨
      ∃ s2, (lockdep_lock_acquire s ctx c).2.2 = (add_held_lock s2 ctx c).2 := by
  rw [lockdep_lock_acquire_def]
  split_ifs
  · exact Or.inl rfl
  · exact Or.inl rfl
  · exact Or.inr ⟨_, rfl⟩

/-! ## Self-reacquisition -/

theorem run_acyclic (sys : System) (calls : List Call)
    (h : Acyclic sys.globals.lockdep_dependency_graph) :
    Acyclic (run sys calls).globals.lockdep_dependency_graph :=
  run_graph_inv Acyclic acyclic_nil (fun _ _ _ hg _ hnp => hg.cons hnp) calls sys h

theorem Acyclic.no_self_edge {g : List (Nat × Nat)} (h : Acyclic g) (c : Nat) : (c, c) ∉ g :=
  fun hm => h c c hm (Path.refl c)

/-! ## Granted acquisitions -/

theorem deadlock_reports_append (a b : List Msg) :
    deadlock_reports (a ++ b) = deadlock_reports a + deadlock_reports b := by
  induction a with
  | nil => simp [deadlock_reports]
  | cons m rest ih =>
    cases m <;> simp [deadlock_reports, ih]
    omega

theorem add_dependency_reports (s : Globals) (a b : Nat) :
    deadlock_reports (add_dependency s a b).out = deadlock_reports s.out := by
  unfold add_dependency
  split_ifs
  · simp [deadlock_reports_append, deadlock_reports]
  · rfl

theorem add_held_lock_reports (s : Globals) (ctx : Ctx) (c : Nat) :
    deadlock_reports (add_held_lock s ctx c).1.out = deadlock_reports s.out := by
  rw [add_held_lock_def]
  split_ifs
  · simp [deadlock_reports_append, deadlock_reports]
  · rfl

/-- The new edge `(h, c)` opens no new path out of `c`. -/
theorem Path.of_cons_from {g : List (Nat × Nat)} {h c x : Nat}
    (hp : Path ((h, c) :: g) c x) : Path g c x := by
  rcases hp.of_cons with h1 | ⟨_, h2⟩
  · exact h1
  · exact h2

theorem WalkFrom.drop_new_edge {g : List (Nat × Nat)} {h c : Nat} (hnp : ¬ Path g c h) {n a : Nat}
    (hw : WalkFrom ((h, c) :: g) n a) (hca : Path g c a) : WalkFrom g n a := by
  induction hw with
  | zero a => exact WalkFrom.zero a
  | @succ n a b e _ ih =>
    rcases List.mem_cons.1 e with he | he
    · have hah : a = h := congrArg Prod.fst he
      subst hah
      exact absurd hca hnp
    · exact WalkFrom.succ he (ih (hca.trans (Path.single he)))

theorem lockdep_lock_acquire_loop_granted (ctx : Ctx) (c : Nat) (l : List Nat) (s : Globals)
    (hsafe : ∀ h ∈ l, ¬ Path s.lockdep_dependency_graph c h)
    (hdepth : ¬ WalkFrom s.lockdep_dependency_graph (MAX_LOCKDEP_HELD_LOCKS + 1) c) :
    (lockdep_lock_acquire_loop ctx c l s).1 = 1 ∧
      deadlock_reports (lockdep_lock_acquire_loop ctx c l s).2.out = deadlock_reports s.out := by
  induction l generalizing s with
  | nil => exact ⟨rfl, rfl⟩
  | cons h rest ih =>
    have hnp : ¬ Path s.lockdep_dependency_graph c h := hsafe h (List.mem_cons_self _ _)
    simp only [lockdep_lock_acquire_loop]
    split_ifs with h1 h2
    · rcases would_create_cycle_sound s h c h2 with hp | hw
      · exact absurd hp hnp
      · exact absurd hw hdepth
    · have key := ih (add_dependency (would_create_cycle s h c).2 h c) ?_ ?_
      · rw [key.2, add_dependency_reports]
        exact ⟨key.1, rfl⟩
      · intro h' hm hp
        rcases add_dependency_graph (would_create_cycle s h c).2 h c with e | e
        · rw [e] at hp
          exact hsafe h' (List.mem_cons_of_mem _ hm) hp
        · rw [e] at hp
          exact hsafe h' (List.mem_cons_of_mem _ hm) hp.of_cons_from
      · intro hw
        rcases add_dependency_graph (would_create_cycle s h c).2 h c with e | e
        · rw [e] at hw
          exact hdepth hw
        · rw [e] at hw
          exact hdepth (hw.drop_new_edge hnp (Path.refl c))
    · exact ih s (fun h' hm => hsafe h' (List.mem_cons_of_mem _ hm)) hdepth

theorem not_walkFrom_nil (n a : Nat) : ¬ WalkFrom [] (n + 1) a := by
  intro h
  cases h with
  | succ e _ => simp at e

/-! ## One call, step by step -/

theorem dependency_exists_eq_zero_iff (s : Globals) (a b : Nat) :
    dependency_exists s a b = 0 ↔ (a, b) ∉ s.lockdep_dependency_graph :=
  dependency_exists_loop_eq_zero_iff _ a b

theorem add_dependency_total_le (s : Globals) (a b : Nat) :
    (add_dependency s a b).lockdep_total_dependencies ≤ s.lockdep_total_dependencies + 1 := by
  unfold add_dependency
  split_ifs
  · exact Nat.le_succ _
  · exact Nat.le_refl _

theorem add_dependency_graph_of_room (s : Globals) (a b : Nat)
    (h : s.lockdep_total_dependencies < MAX_LOCKDEP_DEPENDENCIES) :
    (add_dependency s a b).lockdep_dependency_graph = (a, b) :: s.lockdep_dependency_graph := by
  unfold add_dependency
  split_ifs with h1
  · omega
  · rfl

/-- What the loop of `lockdep_lock_acquire` does to the graph: it keeps every
edge, adds only edges `(h, c)` for held `h`, and raises the size counter by at
most one per held lock. -/
theorem lockdep_lock_acquire_loop_graph_frame (ctx : Ctx) (c : Nat) (l : List Nat)
    (s : Globals) :
    (∀ e ∈ s.lockdep_dependency_graph,
        e ∈ (lockdep_lock_acquire_loop ctx c l s).2.lockdep_dependency_graph) ∧
      (∀ e ∈ (lockdep_lock_acquire_loop ctx c l s).2.lockdep_dependency_graph,
        e ∈ s.lockdep_dependency_graph ∨ ∃ h ∈ l, e = (h, c)) ∧
      (lockdep_lock_acquire_loop ctx c l s).2.lockdep_total_dependencies ≤
        s.lockdep_total_dependencies + l.length := by
  induction l generalizing s with
  | nil => exact ⟨fun e he => he, fun e he => Or.inl he, Nat.le_refl _⟩
  | cons h rest ih =>
    simp only [lockdep_lock_acquire_loop]
    split_ifs with h1 h2
    · refine ⟨fun e he => he, fun e he => Or.inl he, ?_⟩
      show s.lockdep_total_dependencies ≤ s.lockdep_total_dependencies + (h :: rest).length
      exact Nat.le_add_right _ _
    · obtain ⟨k1, k2, k3⟩ := ih (add_dependency (would_create_cycle s h c).2 h c)
      have hg := add_dependency_graph (would_create_cycle s h c).2 h c
      have ht := add_dependency_total_le (would_create_cycle s h c).2 h c
      rw [would_create_cycle_graph] at hg
      rw [would_create_cycle_total] at ht
      refine ⟨fun e he => k1 e ?_, fun e he => ?_, ?_⟩
      · rcases hg with e1 | e1
        · rw [e1]
          exact he
        · rw [e1]
          exact List.mem_cons_of_mem _ he
      · rcases k2 e he with h3 | ⟨h', hm, e3⟩
        · rcases hg with e1 | e1
          · rw [e1] at h3
            exact Or.inl h3
          · rw [e1] at h3
            rcases List.mem_cons.1 h3 with h4 | h4
            · exact Or.inr ⟨h, List.mem_cons_self _ _, h4⟩
            · exact Or.inl h4
        · exact Or.inr ⟨h', List.mem_cons_of_mem _ hm, e3⟩
      · simp only [List.length_cons]
        omega
    · obtain ⟨k1, k2, k3⟩ := ih s
      refine ⟨k1, fun e he => ?_, ?_⟩
      · rcases k2 e he with h3 | ⟨h', hm, e3⟩
        · exact Or.inl h3
        · exact Or.inr ⟨h', List.mem_cons_of_mem _ hm, e3⟩
      · simp only [List.length_cons]
        omega

/-- With room in the graph, a loop that runs to its end has recorded the edge
`(h, c)` for every held `h`. -/
theorem lockdep_lock_acquire_loop_edges (ctx : Ctx) (c : Nat) (l : List Nat) (s : Globals)
    (hres : (lockdep_lock_acquire_loop ctx c l s).1 ≠ 0)
    (hroom : s.lockdep_total_dependencies + l.length ≤ MAX_LOCKDEP_DEPENDENCIES) :
    ∀ h ∈ l, (h, c) ∈ (lockdep_lock_acquire_loop ctx c l s).2.lockdep_dependency_graph := by
  induction l generalizing s with
  | nil => intro h hm; simp at hm
  | cons x rest ih =>
    simp only [List.length_cons] at hroom
    simp only [lockdep_lock_acquire_loop] at hres ⊢
    split_ifs at hres ⊢ with h1 h2
    · exact absurd rfl hres
    · have hg := add_dependency_graph_of_room (would_create_cycle s x c).2 x c
        (by rw [would_create_cycle_total]; omega)
      have ht := add_dependency_total_le (would_create_cycle s x c).2 x c
      rw [would_create_cycle_total] at ht
      intro h hm
      rcases List.mem_cons.1 hm with e | e
      · rw [e]
        apply (lockdep_lock_acquire_loop_graph_frame ctx c rest _).1
        rw [hg]
        exact List.mem_cons_self _ _
      · exact ih _ hres (by omega) h e
    · intro h hm
      rcases List.mem_cons.1 hm with e | e
      · rw [e]
        apply (lockdep_lock_acquire_loop_graph_frame ctx c rest _).1
        by_contra hn
        exact h1 ((dependency_exists_eq_zero_iff s x c).2 hn)
      · exact ih _ hres (by omega) h e

theorem lockdep_lock_acquire_loop_denies_path (ctx : Ctx) (c h : Nat) (l : List Nat)
    (s : Globals) (hac : Acyclic s.lockdep_dependency_graph) (hmem : h ∈ l)
    (hp : Path s.lockdep_dependency_graph c h) :
    (lockdep_lock_acquire_loop ctx c l s).1 = 0 := by
  induction l generalizing s with
  | nil => simp at hmem
  | cons x rest ih =>
    simp only [lockdep_lock_acquire_loop]
    split_ifs with h1 h2
    · rfl
    · have hr : (would_create_cycle s x c).1 = 0 := by
        by_contra hne
        exact h2 hne
      have hnp : ¬ Path s.lockdep_dependency_graph c x := by
        intro hp2
        rw [would_create_cycle_complete s x c hp2] at hr
        exact absurd hr (by decide)
      have hm : h ∈ rest := by
        rcases List.mem_cons.1 hmem with e | e
        · rw [e] at hp
          exact absurd hp hnp
        · exact e
      rcases add_dependency_graph (would_create_cycle s x c).2 x c with e | e
      · exact ih _ (by rw [e]; exact hac) hm (by rw [e]; exact hp)
      · exact ih _ (by rw [e]; exact hac.cons hnp) hm
          (by rw [e]; exact hp.mono (fun _ he => List.mem_cons_of_mem _ he))
    · have hin : (x, c) ∈ s.lockdep_dependency_graph := by
        by_contra hn
        exact h1 ((dependency_exists_eq_zero_iff s x c).2 hn)
      have hm : h ∈ rest := by
        rcases List.mem_cons.1 hmem with e | e
        · rw [e] at hp
          exact absurd hp (hac x c hin)
        · exact e
      exact ih s hac hm hp

/-- A granted acquisition, step by step: the call registers `c` in front of the
held list, keeps the graph's edges, records `(h, c)` for every held `h`, and adds
nothing else. -/
theorem lockdep_lock_acquire_grant_step (s : Globals) (ctx : Ctx) (c : Nat)
    (hen : s.lockdep_enabled ≠ 0)
    (hsafe : ∀ h ∈ ctx.held_locks_head, ¬ Path s.lockdep_dependency_graph c h)
    (hdepth : ¬ WalkFrom s.lockdep_dependency_graph (MAX_LOCKDEP_HELD_LOCKS + 1) c)
    (hcount : ctx.held_locks_count < MAX_LOCKDEP_HELD_LOCKS)
    (hroom : s.lockdep_total_dependencies + ctx.held_locks_head.length ≤
      MAX_LOCKDEP_DEPENDENCIES) :
    ∃ s2, lockdep_lock_acquire s ctx c =
        (1, s2, { ctx with
                    held_locks_head := c :: ctx.held_locks_head
                    held_locks_count := ctx.held_locks_count + 1 }) ∧
      s2.lockdep_enabled ≠ 0 ∧
      (∀ e ∈ s.lockdep_dependency_graph, e ∈ s2.lockdep_dependency_graph) ∧
      (∀ h ∈ ctx.held_locks_head, (h, c) ∈ s2.lockdep_dependency_graph) ∧
      (∀ e ∈ s2.lockdep_dependency_graph,
        e ∈ s.lockdep_dependency_graph ∨ ∃ h ∈ ctx.held_locks_head, e = (h, c)) ∧
      s2.lockdep_total_dependencies ≤
        s.lockdep_total_dependencies + ctx.held_locks_head.length ∧
      (Acyclic s.lockdep_dependency_graph → Acyclic s2.lockdep_dependency_graph) := by
  have hg := (lockdep_lock_acquire_loop_granted ctx c _ s hsafe hdepth).1
  have hne : (lockdep_lock_acquire_loop ctx c ctx.held_locks_head s).1 ≠ 0 := by
    rw [hg]
    decide
  have hnot : ¬ ctx.held_locks_count ≥ MAX_LOCKDEP_HELD_LOCKS := by omega
  obtain ⟨k1, k2, k3⟩ := lockdep_lock_acquire_loop_graph_frame ctx c ctx.held_locks_head s
  refine ⟨(lockdep_lock_acquire_loop ctx c ctx.held_locks_head s).2, ?_, ?_, k1,
    lockdep_lock_acquire_loop_edges ctx c _ s hne hroom, k2, k3, ?_⟩
  · rw [lockdep_lock_acquire_def]
    simp only [hen, hne, if_false, add_held_lock_def, hnot]
  · rw [lockdep_lock_acquire_loop_enabled]
    exact hen
  · intro hac
    exact lockdep_lock_acquire_loop_graph_inv Acyclic ctx c
      (fun _ _ hg2 _ hnp => hg2.cons hnp) _ s hac

/-- A denied acquisition: a held class that the requested one reaches in an
acyclic graph. The context is left as it was. -/
theorem lockdep_lock_acquire_deny_step (s : Globals) (ctx : Ctx) (c h : Nat)
    (hen : s.lockdep_enabled ≠ 0) (hac : Acyclic s.lockdep_dependency_graph)
    (hmem : h ∈ ctx.held_locks_head) (hp : Path s.lockdep_dependency_graph c h) :
    ∃ s2, lockdep_lock_acquire s ctx c = (0, s2, ctx) := by
  refine ⟨(lockdep_lock_acquire_loop ctx c ctx.held_locks_head s).2, ?_⟩
  rw [lockdep_lock_acquire_def]
  simp only [hen, if_false, lockdep_lock_acquire_loop_denies_path ctx c h _ s hac hmem hp,
    if_true]

theorem lockdep_lock_release_head (s : Globals) (id c : Nat) (rest : List Nat) (n : Nat)
    (hen : s.lockdep_enabled ≠ 0) (hn : n + 1 < 2 ^ 64) :
    lockdep_lock_release s { id := id, held_locks_head := c :: rest, held_locks_count := n + 1 }
        c =
      (s, { id := id, held_locks_head := rest, held_locks_count := n }) := by
  have h1 : sub64 (n + 1) 1 = n := by
    rw [sub64_one (by omega) hn]
    rfl
  simp [lockdep_lock_release, hen, remove_held_lock, remove_held_lock_loop, h1]

/-! ## The scenarios of the test programs -/

theorem set_context_same (contexts : Nat → Ctx) (i : Nat) (c : Ctx) :
    set_context contexts i c i = c := by
  simp [set_context]

theorem set_context_other (contexts : Nat → Ctx) (i j : Nat) (c : Ctx) (h : j ≠ i) :
    set_context contexts i c j = contexts j := by
  simp [set_context, h]

theorem Path.eq_of_no_out_edge {g : List (Nat × Nat)} {a b : Nat}
    (hno : ∀ e ∈ g, e.1 ≠ a) (hp : Path g a b) : a = b := by
  cases hp with
  | refl => rfl
  | step e _ => exact absurd rfl (hno _ e)

theorem not_walkFrom_of_no_out_edge {g : List (Nat × Nat)} {a : Nat}
    (hno : ∀ e ∈ g, e.1 ≠ a) (n : Nat) : ¬ WalkFrom g (n + 1) a := by
  intro h
  cases h with
  | succ e _ => exact absurd rfl (hno _ e)

/-- A context that holds nothing and is below the held-lock limit is granted the
class and registers it; the globals are untouched. -/
theorem lockdep_lock_acquire_idle (s : Globals) (i c n : Nat) (hen : s.lockdep_enabled ≠ 0)
    (hn : n < MAX_LOCKDEP_HELD_LOCKS) :
    lockdep_lock_acquire s { id := i, held_locks_head := [], held_locks_count := n } c =
      (1, s, { id := i, held_locks_head := [c], held_locks_count := n + 1 }) := by
  have hnot : ¬ n ≥ MAX_LOCKDEP_HELD_LOCKS := by omega
  rw [lockdep_lock_acquire_def]
  simp [hen, lockdep_lock_acquire_loop, add_held_lock_def, hnot]

/-- Holding `A` alone on an empty graph, a context is granted `B ≠ A`; the graph
then consists of the edge `(A, B)`. -/
theorem lockdep_lock_acquire_second (s : Globals) (i A B : Nat) (hAB : A ≠ B)
    (hen : s.lockdep_enabled ≠ 0) (hg : s.lockdep_dependency_graph = [])
    (ht : s.lockdep_total_dependencies = 0) :
    ∃ s2, lockdep_lock_acquire s { id := i, held_locks_head := [A], held_locks_count := 1 } B =
        (1, s2, { id := i, held_locks_head := [B, A], held_locks_count := 2 }) ∧
      s2.lockdep_enabled ≠ 0 ∧ (A, B) ∈ s2.lockdep_dependency_graph ∧
      (∀ e ∈ s2.lockdep_dependency_graph, e = (A, B)) ∧
      s2.lockdep_total_dependencies ≤ 1 ∧ Acyclic s2.lockdep_dependency_graph := by
  have hno : ∀ e ∈ s.lockdep_dependency_graph, e.1 ≠ B := by
    rw [hg]
    intro e he
    simp at he
  obtain ⟨s2, e2, en2, _, hrec, hsub, htot, hac⟩ :=
    lockdep_lock_acquire_grant_step s
      { id := i, held_locks_head := [A], held_locks_count := 1 } B hen
      (fun h hm hp => by
        have e1 : h = A := by simpa using hm
        have e3 := Path.eq_of_no_out_edge hno hp
        exact hAB (e1.symm.trans e3.symm))
      (not_walkFrom_of_no_out_edge hno _)
      (by show 1 < MAX_LOCKDEP_HELD_LOCKS; decide)
      (by rw [ht]; show 0 + 1 ≤ MAX_LOCKDEP_DEPENDENCIES; decide)
  refine ⟨s2, e2, en2, hrec A (List.mem_cons_self _ _), ?_, ?_, ?_⟩
  · intro e he
    rcases hsub e he with h1 | ⟨h, hm, h2⟩
    · rw [hg] at h1
      simp at h1
    · have e1 : h = A := by simpa using hm
      rw [h2, e1]
  · rw [ht] at htot
    exact htot
  · apply hac
    rw [hg]
    exact acyclic_nil

/-- On an acyclic graph with the edge `(A, B)`, a context that holds nothing is
granted `B` and is then denied `A`. -/
theorem lockdep_lock_acquire_reversed (s : Globals) (i A B : Nat)
    (hen : s.lockdep_enabled ≠ 0) (hin : (A, B) ∈ s.lockdep_dependency_graph)
    (hac : Acyclic s.lockdep_dependency_graph) :
    lockdep_lock_acquire s { id := i, held_locks_head := [], held_locks_count := 0 } B =
        (1, s, { id := i, held_locks_head := [B], held_locks_count := 1 }) ∧
      ∃ s6, lockdep_lock_acquire s { id := i, held_locks_head := [B], held_locks_count := 1 } A =
        (0, s6, { id := i, held_locks_head := [B], held_locks_count := 1 }) :=
  ⟨lockdep_lock_acquire_idle s i B 0 hen (by decide),
    lockdep_lock_acquire_deny_step s _ A B hen hac (List.mem_cons_self _ _) (Path.single hin)⟩

theorem ctx_eq_of_idle (c : Ctx) (h1 : c.held_locks_head = []) (h2 : c.held_locks_count = 0) :
    c = { id := c.id, held_locks_head := [], held_locks_count := 0 } := by
  cases c
  simp_all

/-- The chain scenario on one context record: with `A`, `B`, `C` pairwise
distinct, on an empty graph. -/
theorem lockdep_lock_acquire_third (s2 : Globals) (i A B C : Nat) (hAC : A ≠ C) (hBC : B ≠ C)
    (en2 : s2.lockdep_enabled ≠ 0)
    (hall : ∀ e ∈ s2.lockdep_dependency_graph, e = (A, B))
    (htot : s2.lockdep_total_dependencies ≤ 1) (hac : Acyclic s2.lockdep_dependency_graph) :
    ∃ s3, lockdep_lock_acquire s2
        { id := i, held_locks_head := [B, A], held_locks_count := 2 } C =
        (1, s3, { id := i, held_locks_head := [C, B, A], held_locks_count := 3 }) ∧
      s3.lockdep_enabled ≠ 0 ∧ (A, C) ∈ s3.lockdep_dependency_graph ∧
      Acyclic s3.lockdep_dependency_graph := by
  have hno : ∀ e ∈ s2.lockdep_dependency_graph, e.1 ≠ C := by
    intro e he
    rw [hall e he]
    exact hAC
  obtain ⟨s3, e3, en3, _, hrec, _, _, hac3⟩ :=
    lockdep_lock_acquire_grant_step s2
      { id := i, held_locks_head := [B, A], held_locks_count := 2 } C en2
      (fun h hm hp => by
        have e1 : h = B ∨ h = A := by simpa using hm
        have e3 := Path.eq_of_no_out_edge hno hp
        rcases e1 with e1 | e1
        · exact hBC (e1.symm.trans e3.symm)
        · exact hAC (e1.symm.trans e3.symm))
      (not_walkFrom_of_no_out_edge hno _)
      (by show 2 < MAX_LOCKDEP_HELD_LOCKS; decide)
      (by
        show s2.lockdep_total_dependencies + 2 ≤ 512
        omega)
  exact ⟨s3, e3, en3, hrec A (by simp), hac3 hac⟩

/-! ## Capacity, registration and removal -/

theorem remove_held_lock_loop_first (l1 l2 : List Nat) (c : Nat) (h : c ∉ l1) :
    remove_held_lock_loop (l1 ++ c :: l2) c = some (l1 ++ l2) := by
  induction l1 with
  | nil => simp [remove_held_lock_loop]
  | cons x rest ih =>
    have hx : ¬ x = c := fun e => h (by rw [e]; exact List.mem_cons_self _ _)
    have hr : c ∉ rest := fun hm => h (List.mem_cons_of_mem _ hm)
    simp [remove_held_lock_loop, hx, ih hr]

theorem remove_held_lock_loop_absent (l : List Nat) (c : Nat) (h : c ∉ l) :
    remove_held_lock_loop l c = none := by
  rw [remove_held_lock_loop_eq]
  simp [h]

theorem print_deadlock_warning_reports (s : Globals) (ctx : Ctx) (a b : Nat) :
    deadlock_reports (print_deadlock_warning s ctx a b).out = deadlock_reports s.out + 1 := by
  simp [print_deadlock_warning, deadlock_reports_append, deadlock_reports]

/-- The loop prints a deadlock report exactly when it denies. -/
theorem lockdep_lock_acquire_loop_reports (ctx : Ctx) (c : Nat) (l : List Nat) (s : Globals) :
    deadlock_reports (lockdep_lock_acquire_loop ctx c l s).2.out =
      deadlock_reports s.out + if (lockdep_lock_acquire_loop ctx c l s).1 = 0 then 1 else 0 := by
  induction l generalizing s with
  | nil => simp [lockdep_lock_acquire_loop]
  | cons h rest ih =>
    simp only [lockdep_lock_acquire_loop]
    by_cases h1 : dependency_exists s h c = 0
    · rw [if_pos h1]
      by_cases h2 : (would_create_cycle s h c).1 ≠ 0
      · rw [if_pos h2]
        show deadlock_reports (print_deadlock_warning _ ctx h c).out =
          deadlock_reports s.out + 1
        rw [print_deadlock_warning_reports, would_create_cycle_out]
      · rw [if_neg h2, ih, add_dependency_reports, would_create_cycle_out]
    · rw [if_neg h1, ih]

/-- A call of `lockdep_lock_acquire` prints a deadlock report exactly when it
returns 0. -/
theorem lockdep_lock_acquire_reports (s : Globals) (ctx : Ctx) (c : Nat) :
    deadlock_reports (lockdep_lock_acquire s ctx c).2.1.out =
      deadlock_reports s.out + if (lockdep_lock_acquire s ctx c).1 = 0 then 1 else 0 := by
  have key := lockdep_lock_acquire_loop_reports ctx c ctx.held_locks_head s
  rw [lockdep_lock_acquire_def]
  by_cases h1 : s.lockdep_enabled = 0
  · simp [h1]
  · rw [if_neg h1]
    by_cases h2 : (lockdep_lock_acquire_loop ctx c ctx.held_locks_head s).1 = 0
    · rw [if_pos h2]
      rw [if_pos h2] at key
      simp [key]
    · rw [if_neg h2]
      rw [if_neg h2] at key
      simp [add_held_lock_reports, key]

theorem run_reports (calls : List Call) (sys : System) :
    deadlock_reports (run sys calls).globals.out =
      deadlock_reports sys.globals.out + (results sys calls).count 0 := by
  induction calls generalizing sys with
  | nil => simp [run, results]
  | cons call rest ih =>
    cases call with
    | acquire x c =>
      simp only [run, results, ih, exec, List.count_cons]
      rw [lockdep_lock_acquire_reports]
      by_cases h : (lockdep_lock_acquire sys.globals (sys.contexts x) c).1 = 0
      · simp only [h, if_true, beq_self_eq_true]
        omega
      · simp [h]
    | release x c =>
      simp only [run, results, ih, exec, lockdep_lock_release_globals]
    | reset =>
      simp only [run, results, ih, exec]
      rfl

theorem exec_semaphore_eq (sys : System) (call : Call) :
    exec_semaphore sys call = (exec sys call).2 := by
  cases call <;> rfl

theorem run_semaphore_eq (calls : List Call) (sys : System) :
    run_semaphore sys calls = run sys calls := by
  induction calls generalizing sys with
  | nil => rfl
  | cons call rest ih =>
    simp only [run_semaphore, run, exec_semaphore_eq, ih]

/-- The AB-BA scenario, with the results of the first five calls as well. -/
theorem ab_ba_trace (s : Globals) (fresh : Nat → Nat) (contexts : Nat → Ctx) (A B X Y : Nat)
    (hAB : A ≠ B)
    (hX : (contexts X).held_locks_head = [] ∧ (contexts X).held_locks_count = 0)
    (hY : (contexts Y).held_locks_head = [] ∧ (contexts Y).held_locks_count = 0) :
    results (initial s fresh contexts)
        [Call.acquire X A, Call.acquire X B, Call.release X B, Call.release X A,
          Call.acquire Y B] = [1, 1, 1] ∧
      results (initial s fresh contexts)
        [Call.acquire X A, Call.acquire X B, Call.release X B, Call.release X A,
          Call.acquire Y B, Call.acquire Y A] = [1, 1, 1, 0] ∧
      ((run (initial s fresh contexts)
        [Call.acquire X A, Call.acquire X B, Call.release X B, Call.release X A,
          Call.acquire Y B, Call.acquire Y A]).contexts Y).held_locks_head = [B] := by
  have hen0 : (init_lockdep s fresh).lockdep_enabled ≠ 0 := Nat.one_ne_zero
  have e1 := lockdep_lock_acquire_idle (init_lockdep s fresh) (contexts X).id A 0 hen0
    (by decide)
  obtain ⟨s2, e2, en2, hin, _, _, hac⟩ :=
    lockdep_lock_acquire_second (init_lockdep s fresh) (contexts X).id A B hAB hen0 rfl rfl
  have e3 := lockdep_lock_release_head s2 (contexts X).id B [A] 1 en2 (by decide)
  have e4 := lockdep_lock_release_head s2 (contexts X).id A [] 0 en2 (by decide)
  rw [← ctx_eq_of_idle (contexts X) hX.1 hX.2] at e1
  by_cases hYX : Y = X
  · subst hYX
    obtain ⟨e5, s6, e6⟩ := lockdep_lock_acquire_reversed s2 (contexts Y).id A B en2 hin hac
    simp only [results, run, exec, initial, e1, e2, e3, e4, e5, e6, set_context_same]
    exact ⟨trivial, trivial, trivial⟩
  · obtain ⟨e5, s6, e6⟩ := lockdep_lock_acquire_reversed s2 (contexts Y).id A B en2 hin hac
    rw [← ctx_eq_of_idle (contexts Y) hY.1 hY.2] at e5
    simp only [results, run, exec, initial, e1, e2, e3, e4, e5, e6, set_context_same,
      set_context_other _ _ _ _ hYX]
    exact ⟨trivial, trivial, trivial⟩

/-! ## Termination of the search -/

theorem has_cycle_dfs_loop_budget_eq
    (selfO : Nat → Nat → (Nat → Nat) → Nat → Option (Nat × (Nat → Nat)))
    (self : Nat → Nat → (Nat → Nat) → Nat → Nat × (Nat → Nat)) (a t d : Nat)
    (h : ∀ x w, selfO x t w (d + 1) = some (self x t w (d + 1))) (l : List (Nat × Nat))
    (v : Nat → Nat) :
    has_cycle_dfs_loop_budget selfO a t d l v = some (has_cycle_dfs_loop self a t d l v) := by
  induction l generalizing v with
  | nil => rfl
  | cons e rest ih =>
    simp only [has_cycle_dfs_loop_budget, has_cycle_dfs_loop, h, ih]
    split_ifs <;> rfl

/-- With at least `MAX_LOCKDEP_HELD_LOCKS + 1 - depth + 1` frames the search
returns, and returns what `has_cycle_dfs` returns. -/
theorem has_cycle_dfs_budget_eq (g : List (Nat × Nat)) (frames : Nat) :
    ∀ d, MAX_LOCKDEP_HELD_LOCKS + 1 - d + 1 ≤ frames → ∀ a t v,
      has_cycle_dfs_budget g frames a t v d = some (has_cycle_dfs g a t v d) := by
  induction frames with
  | zero =>
    intro d hd
    omega
  | succ k ih =>
    intro d hd a t v
    rw [has_cycle_dfs_eq]
    simp only [has_cycle_dfs_budget]
    split_ifs with h1 h2
    · rfl
    · rfl
    · exact has_cycle_dfs_loop_budget_eq _ _ a t d
        (fun x w => ih (d + 1) (by omega) x t w) g _

theorem would_create_cycle_budget_eq (frames : Nat) (hf : MAX_LOCKDEP_HELD_LOCKS + 2 ≤ frames)
    (s : Globals) (a b : Nat) :
    would_create_cycle_budget frames s a b = some (would_create_cycle s a b) := by
  unfold would_create_cycle_budget would_create_cycle
  simp only [has_cycle_dfs_budget_eq _ frames 0 (by omega)]

theorem lockdep_lock_acquire_loop_budget_eq (frames : Nat)
    (hf : MAX_LOCKDEP_HELD_LOCKS + 2 ≤ frames) (ctx : Ctx) (c : Nat) (l : List Nat)
    (s : Globals) :
    lockdep_lock_acquire_loop_budget frames ctx c l s =
      some (lockdep_lock_acquire_loop ctx c l s) := by
  induction l generalizing s with
  | nil => rfl
  | cons h rest ih =>
    simp only [lockdep_lock_acquire_loop_budget, lockdep_lock_acquire_loop,
      would_create_cycle_budget_eq frames hf, ih]
    split_ifs <;> rfl

theorem lockdep_lock_acquire_budget_eq (frames : Nat)
    (hf : MAX_LOCKDEP_HELD_LOCKS + 2 ≤ frames) (s : Globals) (ctx : Ctx) (c : Nat) :
    lockdep_lock_acquire_budget frames s ctx c = some (lockdep_lock_acquire s ctx c) := by
  rw [lockdep_lock_acquire_def]
  simp only [lockdep_lock_acquire_budget, lockdep_lock_acquire_loop_budget_eq frames hf]
  split_ifs <;> rfl

/-! ## Independence of the search from the buffer -/

theorem lockdep_is_visited_loop_congr (v w : Nat → Nat) (x : Nat) (n i : Nat)
    (h : ∀ j, i ≤ j → j < i + n → v j = w j) :
    lockdep_is_visited_loop v x i n = lockdep_is_visited_loop w x i n := by
  induction n generalizing i with
  | zero => rfl
  | succ n ih =>
    simp only [lockdep_is_visited_loop]
    rw [h i (Nat.le_refl i) (by omega), ih (i + 1) (fun j h1 h2 => h j (by omega) (by omega))]

theorem lockdep_is_visited_congr (v w : Nat → Nat) (d x : Nat) (h : ∀ i, i < d → v i = w i) :
    lockdep_is_visited v d x = lockdep_is_visited w d x :=
  lockdep_is_visited_loop_congr v w x d 0 (fun j _ h2 => h j (by omega))

theorem has_cycle_dfs_loop_buffer_indep
    (f : Nat → Nat → (Nat → Nat) → Nat → Nat × (Nat → Nat)) (a t d : Nat)
    (hf : ∀ x v i, i ≤ d → (f x t v (d + 1)).2 i = v i)
    (hrec : ∀ x v w, (∀ i, i ≤ d → v i = w i) → (f x t v (d + 1)).1 = (f x t w (d + 1)).1)
    (l : List (Nat × Nat)) (v w : Nat → Nat) (h : ∀ i, i ≤ d → v i = w i) :
    (has_cycle_dfs_loop f a t d l v).1 = (has_cycle_dfs_loop f a t d l w).1 := by
  induction l generalizing v w with
  | nil => rfl
  | cons e rest ih =>
    simp only [has_cycle_dfs_loop]
    rw [lockdep_is_visited_congr v w d e.2 (fun i hi => h i (by omega)), hrec e.2 v w h]
    by_cases h1 : e.1 = a
    · rw [if_pos h1, if_pos h1]
      by_cases h2 : lockdep_is_visited w d e.2 = 0
      · rw [if_pos h2, if_pos h2]
        by_cases h3 : (f e.2 t w (d + 1)).1 ≠ 0
        · rw [if_pos h3, if_pos h3]
        · rw [if_neg h3, if_neg h3]
          exact ih _ _ (fun i hi => by rw [hf _ _ _ hi, hf _ _ _ hi, h i hi])
      · rw [if_neg h2, if_neg h2]
        exact ih _ _ h
    · rw [if_neg h1, if_neg h1]
      exact ih _ _ h

/-- The answer of a call at depth `d` depends on the buffer only through the
words below `d`. -/
theorem has_cycle_dfs_buffer_indep (g : List (Nat × Nat)) (n : Nat) :
    ∀ d, MAX_LOCKDEP_HELD_LOCKS + 1 - d = n → ∀ a t v w, (∀ i, i < d → v i = w i) →
      (has_cycle_dfs g a t v d).1 = (has_cycle_dfs g a t w d).1 := by
  induction n with
  | zero =>
    intro d hd a t v w _
    have h : d > MAX_LOCKDEP_HELD_LOCKS := by omega
    rw [has_cycle_dfs_eq, has_cycle_dfs_eq]
    simp only [h, if_true]
  | succ n ih =>
    intro d hd a t v w hvw
    rw [has_cycle_dfs_eq, has_cycle_dfs_eq]
    by_cases h1 : d > MAX_LOCKDEP_HELD_LOCKS
    · rw [if_pos h1, if_pos h1]
    · rw [if_neg h1, if_neg h1]
      by_cases h2 : a = t
      · rw [if_pos h2, if_pos h2]
      · rw [if_neg h2, if_neg h2]
        apply has_cycle_dfs_loop_buffer_indep (has_cycle_dfs g) a t d
          (fun x u i hi => has_cycle_dfs_frame_le g (d + 1) x t u i (by omega))
          (fun x u1 u2 hu => ih (d + 1) (by omega) x t u1 u2 (fun i hi => hu i (by omega)))
        intro i hi
        simp only [store]
        by_cases hid : i = d
        · rw [if_pos hid, if_pos hid]
        · rw [if_neg hid, if_neg hid]
          exact hvw i (by omega)

theorem would_create_cycle_buffer_indep (s1 s2 : Globals) (a b : Nat)
    (hg : s1.lockdep_dependency_graph = s2.lockdep_dependency_graph) :
    (would_create_cycle s1 a b).1 = (would_create_cycle s2 a b).1 := by
  unfold would_create_cycle
  simp only [hg]
  exact has_cycle_dfs_buffer_indep _ _ 0 rfl b a _ _ (fun i hi => by omega)

/-! ## The size counter -/

theorem add_dependency_sizeCounterOK (s : Globals) (a b : Nat) (h : SizeCounterOK s) :
    SizeCounterOK (add_dependency s a b) := by
  obtain ⟨k1, k2⟩ := h
  unfold add_dependency
  split_ifs with h1
  · exact ⟨k1, k2⟩
  · refine ⟨?_, ?_⟩
    · simp [k1]
    · show s.lockdep_total_dependencies + 1 ≤ MAX_LOCKDEP_DEPENDENCIES
      omega

theorem lockdep_lock_acquire_loop_sizeCounterOK (ctx : Ctx) (c : Nat) (l : List Nat)
    (s : Globals) (h : SizeCounterOK s) :
    SizeCounterOK (lockdep_lock_acquire_loop ctx c l s).2 := by
  induction l generalizing s with
  | nil => exact h
  | cons x rest ih =>
    simp only [lockdep_lock_acquire_loop]
    split_ifs
    · exact h
    · exact ih _ (add_dependency_sizeCounterOK _ x c h)
    · exact ih _ h

theorem lockdep_lock_acquire_sizeCounterOK (s : Globals) (ctx : Ctx) (c : Nat)
    (h : SizeCounterOK s) : SizeCounterOK (lockdep_lock_acquire s ctx c).2.1 := by
  have key := lockdep_lock_acquire_loop_sizeCounterOK ctx c ctx.held_locks_head s h
  rw [lockdep_lock_acquire_def]
  split_ifs
  · exact h
  · exact key
  · show SizeCounterOK (add_held_lock _ ctx c).1
    rw [add_held_lock_def]
    split_ifs
    · exact key
    · exact key

theorem run_host_sizeCounterOK (calls : List HostCall) (sys : System)
    (h : SizeCounterOK sys.globals) : SizeCounterOK (run_host sys calls).globals := by
  induction calls generalizing sys with
  | nil => exact h
  | cons call rest ih =>
    apply ih
    cases call with
    | protocol p =>
      cases p with
      | acquire x c => exact lockdep_lock_acquire_sizeCounterOK _ _ c h
      | release x c =>
        simp only [exec_host, exec, lockdep_lock_release_globals]
        exact h
      | reset => exact ⟨rfl, Nat.zero_le _⟩
    | add_dependency a b => exact add_dependency_sizeCounterOK _ a b h

/-! ## Walks in ascending graphs -/

theorem WalkFrom.ascending_bound {g : List (Nat × Nat)} {M : Nat}
    (hg : ∀ e ∈ g, e.1 < e.2 ∧ e.2 ≤ M) {n a : Nat} (hw : WalkFrom g n a) :
    n = 0 ∨ a + n ≤ M := by
  induction hw with
  | zero a => exact Or.inl rfl
  | @succ n a b e _ ih =>
    have h1 := hg _ e
    simp only at h1
    rcases ih with h2 | h2
    · right
      omega
    · right
      omega

/-! ## The traced search computes the search -/

theorem lockdep_is_visited_loop_traced_reads (v : Nat → Nat) (x i n : Nat) :
    ∀ a ∈ (lockdep_is_visited_loop_traced v x i n).2, ∃ j, a = Access.read j ∧ j < i + n := by
  induction n generalizing i with
  | zero => intro a ha; simp [lockdep_is_visited_loop_traced] at ha
  | succ n ih =>
    intro a ha
    simp only [lockdep_is_visited_loop_traced] at ha
    split_ifs at ha
    · simp only [List.mem_singleton] at ha
      exact ⟨i, ha, by omega⟩
    · rcases List.mem_cons.1 ha with h | h
      · exact ⟨i, h, by omega⟩
      · obtain ⟨j, e, hj⟩ := ih (i + 1) a h
        exact ⟨j, e, by omega⟩

theorem lockdep_init_visited_loop_traced_writes (v : Nat → Nat) (i n : Nat) :
    ∀ a ∈ (lockdep_init_visited_loop_traced v i n).2, ∃ j, a = Access.write j ∧ j < i + n := by
  induction n generalizing v i with
  | zero => intro a ha; simp [lockdep_init_visited_loop_traced] at ha
  | succ n ih =>
    intro a ha
    simp only [lockdep_init_visited_loop_traced] at ha
    rcases List.mem_cons.1 ha with h | h
    · exact ⟨i, h, by omega⟩
    · obtain ⟨j, e, hj⟩ := ih _ (i + 1) a h
      exact ⟨j, e, by omega⟩

/-- An access that stays inside the buffer, but for the store one word past
its end: a load below `MAX_LOCKDEP_HELD_LOCKS`, a store at most at it. -/
theorem has_cycle_dfs_loop_traced_bound
    (fT : Nat → Nat → (Nat → Nat) → Nat → Nat × (Nat → Nat) × List Access) (a t d : Nat)
    (hd : d ≤ MAX_LOCKDEP_HELD_LOCKS)
    (h : ∀ x w, ∀ y ∈ (fT x t w (d + 1)).2.2,
      y.index ≤ MAX_LOCKDEP_HELD_LOCKS ∧ ∀ j, y = Access.read j → j < MAX_LOCKDEP_HELD_LOCKS)
    (l : List (Nat × Nat)) (v : Nat → Nat) :
    ∀ y ∈ (has_cycle_dfs_loop_traced fT a t d l v).2.2,
      y.index ≤ MAX_LOCKDEP_HELD_LOCKS ∧ ∀ j, y = Access.read j → j < MAX_LOCKDEP_HELD_LOCKS := by
  have hread : ∀ x w, ∀ y ∈ (lockdep_is_visited_loop_traced w x 0 d).2,
      y.index ≤ MAX_LOCKDEP_HELD_LOCKS ∧
        ∀ j, y = Access.read j → j < MAX_LOCKDEP_HELD_LOCKS := by
    intro x w y hy
    obtain ⟨j, e, hj⟩ := lockdep_is_visited_loop_traced_reads w x 0 d y hy
    rw [e]
    refine ⟨?_, fun k hk => ?_⟩
    · show j ≤ MAX_LOCKDEP_HELD_LOCKS
      omega
    · have : k = j := (Access.read.inj hk).symm
      omega
  induction l generalizing v with
  | nil => intro y hy; simp [has_cycle_dfs_loop_traced] at hy
  | cons e rest ih =>
    intro y hy
    simp only [has_cycle_dfs_loop_traced] at hy
    split_ifs at hy
    · rcases List.mem_append.1 hy with h1 | h1
      · exact hread _ _ y h1
      · exact h _ _ y h1
    · rcases List.mem_append.1 hy with h1 | h1
      · rcases List.mem_append.1 h1 with h2 | h2
        · exact hread _ _ y h2
        · exact h _ _ y h2
      · exact ih _ y h1
    · rcases List.mem_append.1 hy with h1 | h1
      · exact hread _ _ y h1
      · exact ih _ y h1
    · exact ih _ y hy

theorem has_cycle_dfs_traced_fuel_bound (g : List (Nat × Nat)) (n : Nat) :
    ∀ a t v d, ∀ y ∈ (has_cycle_dfs_traced_fuel g n a t v d).2.2,
      y.index ≤ MAX_LOCKDEP_HELD_LOCKS ∧ ∀ j, y = Access.read j → j < MAX_LOCKDEP_HELD_LOCKS := by
  induction n with
  | zero => intro a t v d y hy; simp [has_cycle_dfs_traced_fuel] at hy
  | succ n ih =>
    intro a t v d y hy
    simp only [has_cycle_dfs_traced_fuel] at hy
    split_ifs at hy with h1 h2
    · simp at hy
    · simp at hy
    · rcases List.mem_cons.1 hy with h3 | h3
      · rw [h3]
        refine ⟨?_, fun j hj => by cases hj⟩
        show d ≤ MAX_LOCKDEP_HELD_LOCKS
        omega
      · exact has_cycle_dfs_loop_traced_bound _ a t d (by omega)
          (fun x w => ih x t w (d + 1)) g _ y h3

theorem would_create_cycle_traced_bound (s : Globals) (a b : Nat) :
    ∀ y ∈ (would_create_cycle_traced s a b).2,
      y.index ≤ MAX_LOCKDEP_HELD_LOCKS ∧ ∀ j, y = Access.read j → j < MAX_LOCKDEP_HELD_LOCKS := by
  intro y hy
  simp only [would_create_cycle_traced] at hy
  rcases List.mem_append.1 hy with h1 | h1
  · obtain ⟨j, e, hj⟩ := lockdep_init_visited_loop_traced_writes _ 0 _ y h1
    rw [e]
    refine ⟨?_, fun k hk => by cases hk⟩
    show j ≤ MAX_LOCKDEP_HELD_LOCKS
    omega
  · exact has_cycle_dfs_traced_fuel_bound _ _ _ _ _ _ y h1

/-! ## Searches that stay inside the buffer -/

namespace Word

theorem WORD_pos : 0 < WORD := Nat.two_pow_pos 64

end Word

/-! ## Refinement: inside the buffer, the run on memory is the run on lists -/

theorem word_load_lt (m : Word.Machine) (a : Nat) : Word.load m a < Word.WORD :=
  Nat.mod_lt _ Word.WORD_pos

/-- A held-lock list is the same list in a memory that has the words of its
nodes unchanged. -/
theorem word_heldList_congr {m1 m2 : Word.Machine} :
    ∀ (addrs : List Nat) (l : List Nat) (p : Nat), Word.HeldList m1 p addrs l →
      (∀ q ∈ addrs, Word.load m2 q = Word.load m1 q ∧
        Word.load m2 (q + 1) = Word.load m1 (q + 1)) →
      Word.HeldList m2 p addrs l
  | [], [], _, h, _ => h
  | [], _ :: _, _, h, _ => h
  | _ :: _, [], _, h, _ => h
  | q :: addrs, c :: l, p, h, hw => by
    obtain ⟨h1, h2, h3, h5⟩ := h
    obtain ⟨w0, w1⟩ := hw q (List.mem_cons_self _ _)
    refine ⟨h1, h2, w0.trans h3, ?_⟩
    rw [w1]
    exact word_heldList_congr addrs l _ h5 (fun q' hq' => hw q' (List.mem_cons_of_mem _ hq'))

theorem word_depList_length {m : Word.Machine} :
    ∀ (addrs : List Nat) (g : List (Nat × Nat)) (p : Nat), Word.DepList m p addrs g →
      addrs.length = g.length
  | [], [], _, _ => rfl
  | [], _ :: _, _, h => absurd h (by simp [Word.DepList])
  | _ :: _, [], _, h => absurd h (by simp [Word.DepList])
  | _ :: addrs, _ :: g, _, h => by
    simp only [List.length_cons]
    rw [word_depList_length addrs g _ h.2.2.2.2]

theorem word_heldList_frame {n : Nat} {m m' : Word.Machine} {has : List Nat}
    {l : List Nat} {p : Nat} (hl : Word.HeldList m p has l)
    (hrange : ∀ q ∈ has, Word.buffer_at n + MAX_LOCKDEP_HELD_LOCKS ≤ q ∧ q + 2 ≤ m.brk)
    (hframe : ∀ w, w < Word.buffer_at n ∨ Word.buffer_at n + MAX_LOCKDEP_HELD_LOCKS ≤ w →
      w < m.brk → Word.load m' w = Word.load m w) : Word.HeldList m' p has l :=
  word_heldList_congr _ _ _ hl (fun q hq =>
    ⟨hframe q (Or.inr (hrange q hq).1) (by have := (hrange q hq).2; omega),
      hframe (q + 1) (Or.inr (by have := (hrange q hq).1; omega))
        (by have := (hrange q hq).2; omega)⟩)

/-! ### `would_create_cycle` -/

theorem word_heldList_head {m : Word.Machine} :
    ∀ (has : List Nat) (l : List Nat) (p : Nat), Word.HeldList m p has l →
      p = 0 ∨ p ∈ has
  | [], [], _, h => Or.inl h
  | [], _ :: _, _, h => absurd h (by simp [Word.HeldList])
  | _ :: _, [], _, h => absurd h (by simp [Word.HeldList])
  | _ :: _, _ :: _, _, h => Or.inr (by rw [h.1]; exact List.mem_cons_self _ _)

theorem word_depList_lt {m : Word.Machine} :
    ∀ (da : List Nat) (g : List (Nat × Nat)) (p : Nat), Word.DepList m p da g →
      ∀ e ∈ g, e.1 < Word.WORD ∧ e.2 < Word.WORD
  | [], [], _, _ => fun e he => absurd he (List.not_mem_nil _)
  | [], _ :: _, _, h => absurd h (by simp [Word.DepList])
  | _ :: _, [], _, h => absurd h (by simp [Word.DepList])
  | q :: da, e :: g, _, h => fun e' he' => by
    rcases List.mem_cons.1 he' with c | c
    · rw [c, ← h.2.2.1, ← h.2.2.2.1]
      exact ⟨word_load_lt _ _, word_load_lt _ _⟩
    · exact word_depList_lt da g _ h.2.2.2.2 e' c

theorem run_append (a b : List Call) (sys : System) :
    run sys (a ++ b) = run (run sys a) b := by
  induction a generalizing sys with
  | nil => rfl
  | cons call rest ih => exact ih _

/-- C1: from the state produced by `init_lockdep`, after every finite sequence
of calls (acquire and release by any contexts on any classes, and `reset_lockdep`
as well) the dependency graph has no directed cycle, and in particular no
self-edge. The contexts of the host may start with any held lists, empty ones
included. -/
theorem acyclic_after_calls (s : Globals) (fresh : Nat → Nat) (contexts : Nat → Ctx)
    (calls : List Call) :
    Acyclic (run (initial s fresh contexts) calls).globals.lockdep_dependency_graph ∧
      ∀ c, (c, c) ∉ (run (initial s fresh contexts) calls).globals.lockdep_dependency_graph :=
  have h := run_acyclic (initial s fresh contexts) calls acyclic_nil
  ⟨h, h.no_self_edge⟩

/-- C2: the cycle detector has no false negatives. For every graph and classes
`from_`, `to_`, a directed path of zero or more edges from `to_` to `from_` makes
`would_create_cycle from_ to_` return 1, whatever the length of the path. -/
theorem would_create_cycle_no_false_negative (s : Globals) (from_ to_ : Nat)
    (h : Path s.lockdep_dependency_graph to_ from_) : (would_create_cycle s from_ to_).1 = 1 :=
  would_create_cycle_complete s from_ to_ h

theorem would_create_cycle_no_false_negative_witness :
    Path (with_graph [(2, 3), (1, 2)]).lockdep_dependency_graph 1 3 ∧
      (would_create_cycle (with_graph [(2, 3), (1, 2)]) 3 1).1 = 1 :=
  have p : Path (with_graph [(2, 3), (1, 2)]).lockdep_dependency_graph 1 3 :=
    @Path.step _ 1 2 3 (by decide) (@Path.step _ 2 3 3 (by decide) (Path.refl 3))
  ⟨p, would_create_cycle_no_false_negative _ 3 1 p⟩

/-- C7: with the engine enabled, a context whose held list is empty is granted
every class `A`, on every dependency graph, and the call adds no edge (list and
size counter are unchanged); so acquire `A`, release `A`, acquire `A` is granted
both times. -/
theorem acquire_with_nothing_held (s : Globals) (ctx : Ctx) (A : Nat)
    (hen : s.lockdep_enabled ≠ 0) (hempty : ctx.held_locks_head = []) :
    (lockdep_lock_acquire s ctx A).1 = 1 ∧
      (lockdep_lock_acquire s ctx A).2.1.lockdep_dependency_graph =
        s.lockdep_dependency_graph ∧
      (lockdep_lock_acquire s ctx A).2.1.lockdep_total_dependencies =
        s.lockdep_total_dependencies ∧
      (lockdep_lock_acquire
        (lockdep_lock_release (lockdep_lock_acquire s ctx A).2.1
          (lockdep_lock_acquire s ctx A).2.2 A).1
        (lockdep_lock_release (lockdep_lock_acquire s ctx A).2.1
          (lockdep_lock_acquire s ctx A).2.2 A).2 A).1 = 1 := by
  have h1 : lockdep_lock_acquire s ctx A =
      (1, (add_held_lock s ctx A).1, (add_held_lock s ctx A).2) := by
    rw [lockdep_lock_acquire_def, hempty]
    simp [hen, lockdep_lock_acquire_loop]
  rw [h1]
  refine ⟨rfl, ?_, ?_, ?_⟩
  · rw [add_held_lock_def]
    split_ifs <;> rfl
  · rw [add_held_lock_def]
    split_ifs <;> rfl
  · have hen2 : (add_held_lock s ctx A).1.lockdep_enabled ≠ 0 := by
      rw [add_held_lock_enabled]
      exact hen
    have hrel : (lockdep_lock_release (add_held_lock s ctx A).1 (add_held_lock s ctx A).2
        A).2.held_locks_head = [] := by
      simp only [lockdep_lock_release, hen2, if_false, remove_held_lock_eq, add_held_lock_def]
      split_ifs <;> simp_all
    rw [lockdep_lock_acquire_def, hrel]
    simp [lockdep_lock_release_globals, hen2, lockdep_lock_acquire_loop]

theorem acquire_with_nothing_held_witness :
    (with_graph [(2, 1)]).lockdep_enabled ≠ 0 ∧
      (lockdep_lock_acquire (with_graph [(2, 1)]) (idle_contexts 0) 1).1 = 1 :=
  ⟨by decide,
    (acquire_with_nothing_held (with_graph [(2, 1)]) (idle_contexts 0) 1 (by decide) rfl).1⟩

/-- C8, as amended: with the engine enabled and at most one node of class `c` in
the held list of the context, `is_lock_held` answers 0 for `c` after
`lockdep_lock_release`. -/
theorem release_then_not_held (s : Globals) (ctx : Ctx) (c : Nat)
    (hen : s.lockdep_enabled ≠ 0) (honce : ctx.held_locks_head.count c ≤ 1) :
    is_lock_held (lockdep_lock_release s ctx c).2 c = 0 := by
  unfold is_lock_held
  rw [is_lock_held_loop_eq_zero_iff]
  simp only [lockdep_lock_release, hen, if_false, remove_held_lock_eq]
  split_ifs with hm
  · show c ∉ ctx.held_locks_head.erase c
    rw [← List.count_eq_zero, List.count_erase_self]
    omega
  · exact hm

theorem release_then_not_held_witness :
    boot.lockdep_enabled ≠ 0 ∧
      ({ id := 0, held_locks_head := [4, 7, 5], held_locks_count := 3 } :
        Ctx).held_locks_head.count 7 ≤ 1 ∧
      is_lock_held (lockdep_lock_release boot
        { id := 0, held_locks_head := [4, 7, 5], held_locks_count := 3 } 7).2 7 = 0 :=
  ⟨by decide, by decide,
    release_then_not_held boot { id := 0, held_locks_head := [4, 7, 5], held_locks_count := 3 }
      7 (by decide) (by decide)⟩

/-- C8 fails as stated: with the engine disabled `lockdep_lock_release` returns
before it removes anything, and with two nodes of class 7 in the list (two
`add_held_lock` calls) only the first is unlinked; `is_lock_held` answers 1
after the release in both cases. -/
theorem release_then_still_held :
    is_lock_held (lockdep_lock_release { boot with lockdep_enabled := 0 }
        { id := 0, held_locks_head := [7], held_locks_count := 1 } 7).2 7 = 1 ∧
      (add_held_lock boot (add_held_lock boot (idle_contexts 0) 7).2 7).2 =
        { id := 0, held_locks_head := [7, 7], held_locks_count := 2 } ∧
      is_lock_held (lockdep_lock_release boot
        (add_held_lock boot (add_held_lock boot (idle_contexts 0) 7).2 7).2 7).2 7 = 1 := by
  decide

/-- C9: a context whose stored count equals the length of its held list (a
64-bit word) keeps that equality through `add_held_lock`, `remove_held_lock`,
`lockdep_lock_acquire` and `lockdep_lock_release`, for every class and in every
branch; and the decrement never wraps: a removal leaves the count as it was or
lowers it by exactly one. -/
theorem count_equals_length_preserved (s : Globals) (ctx : Ctx) (c : Nat)
    (h : ctx.held_locks_count = ctx.held_locks_head.length)
    (hw : ctx.held_locks_count < 2 ^ 64) :
    ((add_held_lock s ctx c).2.held_locks_count =
        (add_held_lock s ctx c).2.held_locks_head.length) ∧
      ((remove_held_lock ctx c).held_locks_count =
        (remove_held_lock ctx c).held_locks_head.length) ∧
      ((lockdep_lock_acquire s ctx c).2.2.held_locks_count =
        (lockdep_lock_acquire s ctx c).2.2.held_locks_head.length) ∧
      ((lockdep_lock_release s ctx c).2.held_locks_count =
        (lockdep_lock_release s ctx c).2.held_locks_head.length) ∧
      ((remove_held_lock ctx c).held_locks_count = ctx.held_locks_count ∨
        (remove_held_lock ctx c).held_locks_count + 1 = ctx.held_locks_count) ∧
      ((lockdep_lock_release s ctx c).2.held_locks_count = ctx.held_locks_count ∨
        (lockdep_lock_release s ctx c).2.held_locks_count + 1 = ctx.held_locks_count) := by
  have hrem := remove_held_lock_count_inv ctx c h hw
  refine ⟨add_held_lock_count_inv s ctx c h, hrem.1, ?_, ?_, hrem.2, ?_⟩
  · rcases lockdep_lock_acquire_context s ctx c with e | ⟨s2, e⟩
    · rw [e]
      exact h
    · rw [e]
      exact add_held_lock_count_inv s2 ctx c h
  · unfold lockdep_lock_release
    split_ifs
    · exact h
    · exact hrem.1
  · unfold lockdep_lock_release
    split_ifs
    · exact Or.inl rfl
    · exact hrem.2

theorem count_equals_length_preserved_witness :
    ({ id := 0, held_locks_head := [4, 7], held_locks_count := 2 } : Ctx).held_locks_count =
        ({ id := 0, held_locks_head := [4, 7], held_locks_count := 2 } :
          Ctx).held_locks_head.length ∧
      (remove_held_lock { id := 0, held_locks_head := [4, 7], held_locks_count := 2 }
        7).held_locks_count =
      (remove_held_lock { id := 0, held_locks_head := [4, 7], held_locks_count := 2 }
        7).held_locks_head.length :=
  ⟨rfl, (count_equals_length_preserved boot
    { id := 0, held_locks_head := [4, 7], held_locks_count := 2 } 7 rfl (by decide)).2.1⟩

/-- C10: from the state produced by `init_lockdep`, after every finite sequence
of `lockdep_lock_acquire`, `lockdep_lock_release` and `reset_lockdep` calls, no
`(from, to)` pair occurs twice in the dependency-graph list. -/
theorem no_duplicate_edges (s : Globals) (fresh : Nat → Nat) (contexts : Nat → Ctx)
    (calls : List Call) :
    (run (initial s fresh contexts) calls).globals.lockdep_dependency_graph.Nodup :=
  run_graph_inv List.Nodup List.nodup_nil
    (fun _ _ _ hg hnm _ => List.nodup_cons.2 ⟨hnm, hg⟩) calls (initial s fresh contexts)
    List.nodup_nil

/-- C4: the AB-BA scenario. For distinct classes `A`, `B` and contexts `X`, `Y`
(the same one or not) that hold nothing (empty list, count 0), from the state
produced by `init_lockdep`: `X` is granted `A` and then `B`, releases both; `Y`
is granted `B` and then denied `A`, and is left holding exactly `B`. -/
theorem ab_ba_denied (s : Globals) (fresh : Nat → Nat) (contexts : Nat → Ctx) (A B X Y : Nat)
    (hAB : A ≠ B)
    (hX : (contexts X).held_locks_head = [] ∧ (contexts X).held_locks_count = 0)
    (hY : (contexts Y).held_locks_head = [] ∧ (contexts Y).held_locks_count = 0) :
    results (initial s fresh contexts)
        [Call.acquire X A, Call.acquire X B, Call.release X B, Call.release X A,
          Call.acquire Y B, Call.acquire Y A] = [1, 1, 1, 0] ∧
      ((run (initial s fresh contexts)
        [Call.acquire X A, Call.acquire X B, Call.release X B, Call.release X A,
          Call.acquire Y B, Call.acquire Y A]).contexts Y).held_locks_head = [B] :=
  ⟨(ab_ba_trace s fresh contexts A B X Y hAB hX hY).2.1,
    (ab_ba_trace s fresh contexts A B X Y hAB hX hY).2.2⟩

theorem ab_ba_denied_witness :
    (1 : Nat) ≠ 2 ∧
      results (initial boot (fun _ => 0) idle_contexts)
        [Call.acquire 0 1, Call.acquire 0 2, Call.release 0 2, Call.release 0 1,
          Call.acquire 1 2, Call.acquire 1 1] = [1, 1, 1, 0] :=
  ⟨by decide,
    (ab_ba_denied boot (fun _ => 0) idle_contexts 1 2 0 1 (by decide) ⟨rfl, rfl⟩
      ⟨rfl, rfl⟩).1⟩

/-- C5: the chain scenario. For pairwise distinct classes `A`, `B`, `C` and a
context that holds nothing (empty list, count 0), from the state produced by
`init_lockdep`: `A`, `B`, `C` are granted in that order; after the release of
`C`, `B`, `A` the context is granted `C` and then, holding `C`, denied `A`. -/
theorem chain_denied (s : Globals) (fresh : Nat → Nat) (contexts : Nat → Ctx) (A B C X : Nat)
    (hAB : A ≠ B) (hAC : A ≠ C) (hBC : B ≠ C)
    (hX : (contexts X).held_locks_head = [] ∧ (contexts X).held_locks_count = 0) :
    results (initial s fresh contexts)
        [Call.acquire X A, Call.acquire X B, Call.acquire X C,
          Call.release X C, Call.release X B, Call.release X A,
          Call.acquire X C, Call.acquire X A] = [1, 1, 1, 1, 0] ∧
      ((run (initial s fresh contexts)
        [Call.acquire X A, Call.acquire X B, Call.acquire X C,
          Call.release X C, Call.release X B, Call.release X A,
          Call.acquire X C, Call.acquire X A]).contexts X).held_locks_head = [C] := by
  have hen0 : (init_lockdep s fresh).lockdep_enabled ≠ 0 := Nat.one_ne_zero
  have e1 := lockdep_lock_acquire_idle (init_lockdep s fresh) (contexts X).id A 0 hen0
    (by decide)
  obtain ⟨s2, e2, en2, _, hall, htot, hac⟩ :=
    lockdep_lock_acquire_second (init_lockdep s fresh) (contexts X).id A B hAB hen0 rfl rfl
  obtain ⟨s3, e3, en3, hin, hac3⟩ :=
    lockdep_lock_acquire_third s2 (contexts X).id A B C hAC hBC en2 hall htot hac
  have e4 := lockdep_lock_release_head s3 (contexts X).id C [B, A] 2 en3 (by decide)
  have e5 := lockdep_lock_release_head s3 (contexts X).id B [A] 1 en3 (by decide)
  have e6 := lockdep_lock_release_head s3 (contexts X).id A [] 0 en3 (by decide)
  obtain ⟨e7, s8, e8⟩ := lockdep_lock_acquire_reversed s3 (contexts X).id A C en3 hin hac3
  rw [← ctx_eq_of_idle (contexts X) hX.1 hX.2] at e1
  simp only [results, run, exec, initial, e1, e2, e3, e4, e5, e6, e7, e8, set_context_same]
  exact ⟨trivial, trivial⟩

theorem chain_denied_witness :
    (1 : Nat) ≠ 2 ∧ (1 : Nat) ≠ 3 ∧ (2 : Nat) ≠ 3 ∧
      results (initial boot (fun _ => 0) idle_contexts)
        [Call.acquire 0 1, Call.acquire 0 2, Call.acquire 0 3,
          Call.release 0 3, Call.release 0 2, Call.release 0 1,
          Call.acquire 0 3, Call.acquire 0 1] = [1, 1, 1, 1, 0] :=
  ⟨by decide, by decide, by decide,
    (chain_denied boot (fun _ => 0) idle_contexts 1 2 3 0 (by decide) (by decide) (by decide)
      ⟨rfl, rfl⟩).1⟩

/-- C11: graph capacity. When the size counter is 512, `add_dependency` leaves
the edge list and the size counter as they were, for every `from_` and `to_`,
and `dependency_exists` answers the same for every pair before and after. -/
theorem add_dependency_at_capacity (s : Globals) (from_ to_ : Nat)
    (hfull : s.lockdep_total_dependencies = MAX_LOCKDEP_DEPENDENCIES) :
    (add_dependency s from_ to_).lockdep_dependency_graph = s.lockdep_dependency_graph ∧
      (add_dependency s from_ to_).lockdep_total_dependencies = s.lockdep_total_dependencies ∧
      ∀ a b, dependency_exists (add_dependency s from_ to_) a b = dependency_exists s a b := by
  have h : s.lockdep_total_dependencies ≥ MAX_LOCKDEP_DEPENDENCIES := by omega
  simp only [add_dependency, h, if_true, dependency_exists]
  exact ⟨trivial, trivial, fun _ _ => trivial⟩

theorem add_dependency_at_capacity_witness :
    (with_graph ((List.range 512).map (fun i => (i, i + 1)))).lockdep_total_dependencies =
        MAX_LOCKDEP_DEPENDENCIES ∧
      (add_dependency (with_graph ((List.range 512).map (fun i => (i, i + 1)))) 513
        0).lockdep_dependency_graph =
        (with_graph ((List.range 512).map (fun i => (i, i + 1)))).lockdep_dependency_graph :=
  ⟨by simp [with_graph, MAX_LOCKDEP_DEPENDENCIES],
    (add_dependency_at_capacity _ 513 0 (by simp [with_graph, MAX_LOCKDEP_DEPENDENCIES])).1⟩

/-- C12: held-lock capacity. When the held-lock count of a context is 16,
`add_held_lock` leaves its held list and count (the whole record) as they were,
for every class, and `is_lock_held` answers the same for every class. -/
theorem add_held_lock_at_capacity (s : Globals) (ctx : Ctx) (c : Nat)
    (hfull : ctx.held_locks_count = MAX_LOCKDEP_HELD_LOCKS) :
    (add_held_lock s ctx c).2 = ctx ∧
      ∀ k, is_lock_held (add_held_lock s ctx c).2 k = is_lock_held ctx k := by
  have h : ctx.held_locks_count ≥ MAX_LOCKDEP_HELD_LOCKS := by omega
  simp only [add_held_lock_def, h, if_true]
  exact ⟨trivial, fun _ => trivial⟩

/-- C16: disabled pass-through. When the enabled flag is 0,
`lockdep_lock_acquire` returns 1 for every context and class and leaves the
globals (graph, size counter, output) and every context's held list and count
as they were. -/
theorem disabled_pass_through (sys : System) (x c : Nat)
    (hoff : sys.globals.lockdep_enabled = 0) :
    lockdep_lock_acquire sys.globals (sys.contexts x) c = (1, sys.globals, sys.contexts x) ∧
      (exec sys (Call.acquire x c)).1 = some 1 ∧
      (exec sys (Call.acquire x c)).2.globals = sys.globals ∧
      ∀ j, (exec sys (Call.acquire x c)).2.contexts j = sys.contexts j := by
  have e : lockdep_lock_acquire sys.globals (sys.contexts x) c =
      (1, sys.globals, sys.contexts x) := by
    rw [lockdep_lock_acquire_def, if_pos hoff]
  refine ⟨e, ?_, ?_, ?_⟩
  · simp only [exec, e]
  · simp only [exec, e]
  · intro j
    simp only [exec, e, set_context]
    split_ifs with hj
    · rw [hj]
    · rfl

/-- C19: `reset_lockdep` from any state gives an empty dependency graph
(`dependency_exists` answers 0 for every pair), a size counter of 0 and the
enabled flag 1, and leaves the held list and count of every context as they
were. -/
theorem reset_lockdep_empties (sys : System) :
    (reset_lockdep sys.globals).lockdep_dependency_graph = [] ∧
      (∀ f t, dependency_exists (reset_lockdep sys.globals) f t = 0) ∧
      (reset_lockdep sys.globals).lockdep_total_dependencies = 0 ∧
      (reset_lockdep sys.globals).lockdep_enabled = 1 ∧
      (exec sys Call.reset).2.globals = reset_lockdep sys.globals ∧
      (exec sys Call.reset).2.contexts = sys.contexts :=
  ⟨rfl, fun _ _ => rfl, rfl, rfl, rfl, rfl⟩

/-- C18: `remove_held_lock` unlinks exactly the first node of class `c`: if the
list is `l1 ++ c :: l2` with `c` not in `l1`, the new list is `l1 ++ l2` (a second
`c` in `l2` stays, the order is kept) and the count is decremented by one as a
64-bit word (exactly one less when it was at least 1); if no node has class `c`,
the record is unchanged. -/
theorem remove_held_lock_first_only (ctx : Ctx) (c : Nat) :
    (c ∉ ctx.held_locks_head → remove_held_lock ctx c = ctx) ∧
      (∀ l1 l2, ctx.held_locks_head = l1 ++ c :: l2 → c ∉ l1 →
        remove_held_lock ctx c =
          { ctx with
              held_locks_head := l1 ++ l2
              held_locks_count := sub64 ctx.held_locks_count 1 }) ∧
      (1 ≤ ctx.held_locks_count → ctx.held_locks_count < 2 ^ 64 →
        sub64 ctx.held_locks_count 1 + 1 = ctx.held_locks_count) := by
  refine ⟨fun h => ?_, fun l1 l2 e h => ?_, fun h1 h2 => ?_⟩
  · simp only [remove_held_lock, remove_held_lock_loop_absent _ _ h]
  · simp only [remove_held_lock, e, remove_held_lock_loop_first l1 l2 c h]
  · rw [sub64_one h1 h2]
    omega

theorem add_held_lock_at_capacity_witness :
    ({ id := 0, held_locks_head := List.range 16, held_locks_count := 16 } :
        Ctx).held_locks_count = MAX_LOCKDEP_HELD_LOCKS ∧
      (add_held_lock boot { id := 0, held_locks_head := List.range 16, held_locks_count := 16 }
        99).2 = { id := 0, held_locks_head := List.range 16, held_locks_count := 16 } :=
  ⟨rfl, (add_held_lock_at_capacity boot
    { id := 0, held_locks_head := List.range 16, held_locks_count := 16 } 99 rfl).1⟩

theorem disabled_pass_through_witness :
    ({ globals := { with_graph [(1, 2)] with lockdep_enabled := 0 },
        contexts := fun i => { id := i, held_locks_head := [2], held_locks_count := 1 } } :
        System).globals.lockdep_enabled = 0 ∧
      (exec { globals := { with_graph [(1, 2)] with lockdep_enabled := 0 },
              contexts := fun i => { id := i, held_locks_head := [2], held_locks_count := 1 } }
        (Call.acquire 0 1)).1 = some 1 :=
  ⟨rfl, (disabled_pass_through
    { globals := { with_graph [(1, 2)] with lockdep_enabled := 0 },
      contexts := fun i => { id := i, held_locks_head := [2], held_locks_count := 1 } }
    0 1 rfl).2.1⟩

theorem remove_held_lock_first_only_witness :
    ({ id := 0, held_locks_head := [4, 7, 5, 7], held_locks_count := 4 } :
        Ctx).held_locks_head = [4] ++ 7 :: [5, 7] ∧ 7 ∉ [4] ∧
      remove_held_lock { id := 0, held_locks_head := [4, 7, 5, 7], held_locks_count := 4 } 7 =
        { id := 0, held_locks_head := [4, 5, 7], held_locks_count := 3 } :=
  ⟨rfl, by decide,
    (remove_held_lock_first_only
      { id := 0, held_locks_head := [4, 7, 5, 7], held_locks_count := 4 } 7).2.1 [4] [5, 7] rfl
      (by decide)⟩

/-- C17: the semaphore entry points are aliases. For every state, context and
class, `lockdep_semaphore_acquire` leaves the state (graph, size counter, held
list, count, output) that `lockdep_lock_acquire` leaves, and
`lockdep_semaphore_release` the state of `lockdep_lock_release`; so every call
sequence made through them ends in the same state. In the AB-BA sequence made
with semaphore classes `A ≠ B`, no deadlock report is printed by the first five
calls, one is printed by the sixth, and the context is left holding exactly
`B`. -/
theorem semaphore_calls_are_aliases (s : Globals) (fresh : Nat → Nat) (contexts : Nat → Ctx)
    (A B X Y : Nat) (hAB : A ≠ B)
    (hX : (contexts X).held_locks_head = [] ∧ (contexts X).held_locks_count = 0)
    (hY : (contexts Y).held_locks_head = [] ∧ (contexts Y).held_locks_count = 0) :
    (∀ (g : Globals) (ctx : Ctx) (c : Nat),
        lockdep_semaphore_acquire g ctx c = (lockdep_lock_acquire g ctx c).2) ∧
      (∀ (g : Globals) (ctx : Ctx) (c : Nat),
        lockdep_semaphore_release g ctx c = lockdep_lock_release g ctx c) ∧
      (∀ (sys : System) (calls : List Call), run_semaphore sys calls = run sys calls) ∧
      deadlock_reports (run_semaphore (initial s fresh contexts)
        [Call.acquire X A, Call.acquire X B, Call.release X B, Call.release X A,
          Call.acquire Y B]).globals.out =
        deadlock_reports (initial s fresh contexts).globals.out ∧
      deadlock_reports (run_semaphore (initial s fresh contexts)
        [Call.acquire X A, Call.acquire X B, Call.release X B, Call.release X A,
          Call.acquire Y B, Call.acquire Y A]).globals.out =
        deadlock_reports (initial s fresh contexts).globals.out + 1 ∧
      ((run_semaphore (initial s fresh contexts)
        [Call.acquire X A, Call.acquire X B, Call.release X B, Call.release X A,
          Call.acquire Y B, Call.acquire Y A]).contexts Y).held_locks_head = [B] := by
  obtain ⟨r5, r6, hh⟩ := ab_ba_trace s fresh contexts A B X Y hAB hX hY
  refine ⟨fun _ _ _ => rfl, fun _ _ _ => rfl, fun sys calls => run_semaphore_eq calls sys,
    ?_, ?_, ?_⟩
  · rw [run_semaphore_eq, run_reports, r5]
    rfl
  · rw [run_semaphore_eq, run_reports, r6]
    rfl
  · rw [run_semaphore_eq]
    exact hh

theorem semaphore_calls_are_aliases_witness :
    (1 : Nat) ≠ 2 ∧
      deadlock_reports (run_semaphore (initial boot (fun _ => 0) idle_contexts)
        [Call.acquire 0 1, Call.acquire 0 2, Call.release 0 2, Call.release 0 1,
          Call.acquire 0 2, Call.acquire 0 1]).globals.out =
        deadlock_reports (initial boot (fun _ => 0) idle_contexts).globals.out + 1 :=
  ⟨by decide,
    (semaphore_calls_are_aliases boot (fun _ => 0) idle_contexts 1 2 0 0 (by decide)
      ⟨rfl, rfl⟩ ⟨rfl, rfl⟩).2.2.2.2.1⟩

/-- C20: termination. On every dependency graph (cycles and self-edges
included) `has_cycle_dfs` called at `depth` returns within
`MAX_LOCKDEP_HELD_LOCKS + 1 - depth + 1` nested activations: from depth 0 that is
18 frames, whose `depth` arguments are 0 to 17. Hence `would_create_cycle`, and
`lockdep_lock_acquire` on every held list, return with 18 frames for the
search. -/
theorem lockdep_terminates (s : Globals) (ctx : Ctx) (c from_ to_ : Nat) (visited : Nat → Nat)
    (depth : Nat) :
    has_cycle_dfs_budget s.lockdep_dependency_graph (MAX_LOCKDEP_HELD_LOCKS + 1 - depth + 1)
        from_ to_ visited depth =
        some (has_cycle_dfs s.lockdep_dependency_graph from_ to_ visited depth) ∧
      would_create_cycle_budget 18 s from_ to_ = some (would_create_cycle s from_ to_) ∧
      lockdep_lock_acquire_budget 18 s ctx c = some (lockdep_lock_acquire s ctx c) :=
  ⟨has_cycle_dfs_budget_eq _ _ depth (Nat.le_refl _) from_ to_ visited,
    would_create_cycle_budget_eq 18 (by decide) s from_ to_,
    lockdep_lock_acquire_budget_eq 18 (by decide) s ctx c⟩

/-- C22: no false positives within the depth bound. A nonzero answer of
`would_create_cycle from_ to_` comes from a path from `to_` to `from_` or from a
walk of 17 edges that starts at `to_`; so on a graph in which no walk from `to_`
has more than 16 edges, the answer is nonzero only if the path exists. -/
theorem no_false_positive_within_depth (s : Globals) (from_ to_ : Nat)
    (h : (would_create_cycle s from_ to_).1 ≠ 0) :
    (Path s.lockdep_dependency_graph to_ from_ ∨
        WalkFrom s.lockdep_dependency_graph (MAX_LOCKDEP_HELD_LOCKS + 1) to_) ∧
      (¬ WalkFrom s.lockdep_dependency_graph (MAX_LOCKDEP_HELD_LOCKS + 1) to_ →
        Path s.lockdep_dependency_graph to_ from_) := by
  have key := would_create_cycle_sound s from_ to_ h
  refine ⟨key, fun hb => ?_⟩
  rcases key with hp | hw
  · exact hp
  · exact absurd hw hb

set_option maxRecDepth 100000 in
theorem no_false_positive_within_depth_witness :
    (would_create_cycle (with_graph (chain_edges 16)) 17 1).1 ≠ 0 ∧
      ¬ WalkFrom (with_graph (chain_edges 16)).lockdep_dependency_graph
        (MAX_LOCKDEP_HELD_LOCKS + 1) 1 ∧
      Path (with_graph (chain_edges 16)).lockdep_dependency_graph 1 17 :=
  have hb : ¬ WalkFrom (with_graph (chain_edges 16)).lockdep_dependency_graph
      (MAX_LOCKDEP_HELD_LOCKS + 1) 1 := fun hw => by
    have h1 : MAX_LOCKDEP_HELD_LOCKS + 1 = 0 ∨ 1 + (MAX_LOCKDEP_HELD_LOCKS + 1) ≤ 17 :=
      WalkFrom.ascending_bound (g := chain_edges 16) (by decide) hw
    have h2 : MAX_LOCKDEP_HELD_LOCKS = 16 := rfl
    omega
  ⟨by decide, hb,
    (no_false_positive_within_depth (with_graph (chain_edges 16)) 17 1 (by decide)).2 hb⟩

set_option maxRecDepth 100000 in
/-- C26, the code at the failing input: on the chain `1 → 2 → ... → 17` of 16
edges, which the protocol records when one context takes the classes 1 to 17
pairwise, `would_create_cycle 0 1` answers 0 after a store to word 16 of the
scratch buffer, one word past the 16 words that `init_lockdep` obtains. -/
theorem visited_store_past_buffer :
    (run (initial boot (fun _ => 0) idle_contexts)
        (Call.acquire 0 1 :: chain_calls 0 1 16)).globals.lockdep_dependency_graph =
        chain_edges 16 ∧
      (would_create_cycle_traced (with_graph (chain_edges 16)) 0 1).1 = 0 ∧
      Access.write 16 ∈ (would_create_cycle_traced (with_graph (chain_edges 16)) 0 1).2 := by
  decide

/-- C27: independence from the contents of the scratch buffer. For every graph
and every `from_`, `to_` the answer of `has_cycle_dfs to_ from_ visited 0` is the
same for every content of `visited`, and so the answer of `would_create_cycle`
does not depend on what earlier searches left in the buffer. -/
theorem search_independent_of_buffer (s : Globals) (from_ to_ : Nat) (v w : Nat → Nat) :
    (has_cycle_dfs s.lockdep_dependency_graph to_ from_ v 0).1 =
        (has_cycle_dfs s.lockdep_dependency_graph to_ from_ w 0).1 ∧
      (would_create_cycle { s with lockdep_visited_buffer := v } from_ to_).1 =
        (would_create_cycle s from_ to_).1 :=
  ⟨has_cycle_dfs_buffer_indep _ _ 0 rfl to_ from_ v w (fun i hi => by omega),
    would_create_cycle_buffer_indep _ s from_ to_ rfl⟩

/-- C28: the size-counter invariant. From the state produced by `init_lockdep`,
after every finite sequence of `add_dependency`, `lockdep_lock_acquire`,
`lockdep_lock_release` and `reset_lockdep` calls, `lockdep_total_dependencies` is
the length of the dependency-graph list and is at most 512. -/
theorem size_counter_invariant (s : Globals) (fresh : Nat → Nat) (contexts : Nat → Ctx)
    (calls : List HostCall) :
    (run_host (initial s fresh contexts) calls).globals.lockdep_total_dependencies =
        (run_host (initial s fresh contexts) calls).globals.lockdep_dependency_graph.length ∧
      (run_host (initial s fresh contexts) calls).globals.lockdep_total_dependencies ≤ 512 :=
  run_host_sizeCounterOK calls (initial s fresh contexts) ⟨rfl, Nat.zero_le _⟩

/-! ## The store past the buffer, in memory

The store of C26 on the word-addressed memory: the word behind the scratch
buffer is the class of the held-lock node that was allocated first. Each run
starts from `init_lockdep` on a host with three idle contexts. -/

set_option maxRecDepth 1000000 in
/-- C13 fails on the code, by the store of C26. Context 1 holds class 0, the
graph has the edge `(1, 0)` and the chain `1 → 2 → ... → 17`, and context 1 asks
for class 1. The call is denied, as it must be; the search it makes is entered
at depth 16 and stores class 17 one word past the buffer, over the class of the
caller's node. The held list of the caller is `[0]` before the denied call and
`[17]` after it; the count is 1 before and after. -/
theorem denied_call_rewrites_held_class :
    Word.observe (Word.init_lockdep (Word.host 3)) denied_call_setup (Call.acquire 1 1) 1 =
      some (([0], 1), some 0, ([17], 1)) := by
  decide

set_option maxRecDepth 1000000 in
/-- C15 fails on the code, by the store of C26. Context 0 holds class 100, the
graph is the chain `1 → 2 → ... → 17`, and context 0 asks for class 1. The call
is granted with the count going from 1 to 2, and the held list after it is
`[1, 17]`: the search of the call has stored class 17 over the class 100 of the
node that was there, so the list is not class 1 followed by the previous list
`[100]`. -/
theorem granted_call_rewrites_previous_class :
    Word.observe (Word.init_lockdep (Word.host 3)) granted_call_setup (Call.acquire 0 1) 0 =
      some (([100], 1), some 1, ([1, 17], 2)) := by
  decide

set_option maxRecDepth 1000000 in
/-- C21 fails on the code, by the store of C26. Context 0 holds classes 2 and 1,
the graph is the chain `10 → 11 → ... → 26`, and context 0 asks for class 10. On
the state before the call, `dependency_exists` and `would_create_cycle` answer
0 for both held classes, so the criterion says granted. The call returns 0: its
first search stores class 26 over the class 1 of the second node, the loop then
tests the pair `(26, 10)`, and the held list is left as `[2, 26]`. -/
theorem denied_against_criterion :
    Word.checks_after (Word.init_lockdep (Word.host 3)) criterion_setup 2 10 = some (0, 0) ∧
      Word.checks_after (Word.init_lockdep (Word.host 3)) criterion_setup 1 10 = some (0, 0) ∧
      Word.observe (Word.init_lockdep (Word.host 3)) criterion_setup (Call.acquire 0 10) 0 =
        some (([2, 1], 2), some 0, ([2, 26], 2)) := by
  decide

set_option maxRecDepth 1000000 in
/-- C23 fails on the code, by the store of C26. Context 2 holds class 100,
context 1 holds class 0, the graph is the chain `1 → 2 → ... → 17`, and
context 1 asks for class 1. The call is granted, and it changes the held list
of context 2, which is not the caller, from `[100]` to `[17]`. -/
theorem acquire_rewrites_other_context :
    Word.observe (Word.init_lockdep (Word.host 3)) other_context_setup (Call.acquire 1 1) 2 =
      some (([100], 1), some 1, ([17], 1)) := by
  decide

set_option maxRecDepth 1000000 in
/-- C24 fails on the code, by the store of C26. After a sequence of
`lockdep_lock_acquire` and `lockdep_lock_release` calls from `init_lockdep`, in
which context 0 has taken class 0 and class 17 and the last search has stored
class 17 over class 0, the held list of context 0 is `[17, 17]`: the same class
twice. -/
theorem held_class_twice :
    Word.held_after (Word.init_lockdep (Word.host 3)) duplicate_class_trace 0 =
      some [17, 17] := by
  decide

set_option maxRecDepth 1000000 in
/-- C25 fails on the code, by the store of C26. Context 0 holds 16 classes
(count 16), the edges from the classes 201 to 215 to class 1 are in the graph
with the chain `1 → 2 → ... → 17`, and context 0 asks for class 1. The call
passes the cycle checks and returns 1 with the count left at 16, but the held
list is not left as it was: the search for the last node has stored class 17
over its class 100. -/
theorem grant_at_limit_rewrites_held_class :
    Word.observe (Word.init_lockdep (Word.host 3)) limit_setup (Call.acquire 0 1) 0 =
      some (([215, 214, 213, 212, 211, 210, 209, 208, 207, 206, 205, 204, 203, 202, 201, 100],
          16), some 1,
        ([215, 214, 213, 212, 211, 210, 209, 208, 207, 206, 205, 204, 203, 202, 201, 17],
          16)) := by
  decide

end Lockdep
